import Mathlib

/-!
The `linked_ptr` smart pointer: ring-based shared ownership.

A shallow embedding of `src/linked_ptr.hpp`.

Memory is modelled as explicit state: every handle is identified by its address
(a natural number), its three fields `_left`, `_right` and `_ptr` are the values
of three functions at that address, and pointers to managed objects are natural
numbers with `0` standing for `nullptr`.  `delete p` is recorded in a log
(`freed`); `delete nullptr` does nothing.

The value kept in `_ptr` is the address the typed pointer holds.  The managed types
`T` and `Y` are parameters of the templates, so a conversion between `Y*` and `T*`
is a parameter of the operations that convert: for handles of the same managed type
there is no conversion, for related types the conversion may move the address (a
base subobject that does not start where the derived object starts).  Conversion to
`void *` never moves the address.  Statements of a method body are
executed one after the other, each reading the fields written by the previous
ones, so that aliasing between `this`, `_left` and `_right` behaves as in the
source.
-/

namespace smart_ptr

/-- Memory: the `_left`, `_right`, `_ptr` fields of every address, and the log of
the objects passed to `delete` so far. -/
structure Heap where
  left : Nat → Nat
  right : Nat → Nat
  ptr : Nat → Nat
  freed : List Nat

/-- Store `v` into `n->_left`. -/
def Heap.setLeft (s : Heap) (n v : Nat) : Heap :=
  { s with left := Function.update s.left n v }

/-- Store `v` into `n->_right`. -/
def Heap.setRight (s : Heap) (n v : Nat) : Heap :=
  { s with right := Function.update s.right n v }

/-- Store `v` into `n->_ptr`. -/
def Heap.setPtr (s : Heap) (n v : Nat) : Heap :=
  { s with ptr := Function.update s.ptr n v }

/-- The expression `delete p`: a null pointer is ignored, any other pointer is
appended to the log of freed objects. -/
def Heap.delete (s : Heap) (p : Nat) : Heap :=
  if p = 0 then s else { s with freed := s.freed ++ [p] }

/-- Memory before any handle exists: nothing has been freed. -/
def Heap.empty : Heap :=
  { left := fun _ => 0, right := fun _ => 0, ptr := fun _ => 0, freed := [] }

namespace linked_ptr_base

/-- The constructor `linked_ptr_base()`: `_left = this; _right = this;`. -/
def ctor (s : Heap) (this : Nat) : Heap :=
  (s.setLeft this this).setRight this this

/-- The method `unique()`: `_left == this && _right == this`. -/
def unique (s : Heap) (this : Nat) : Bool :=
  decide (s.left this = this) && decide (s.right this = this)

/-- The method `insert_after(rhs)`:
`_right = rhs._right; rhs._right = this; _left = &rhs; _right->_left = this;`. -/
def insert_after (s : Heap) (this rhs : Nat) : Heap :=
  let s1 := s.setRight this (s.right rhs)
  let s2 := s1.setRight rhs this
  let s3 := s2.setLeft this rhs
  s3.setLeft (s3.right this) this

/-- The method `erase()`:
`_right->_left = _left; _left->_right = _right; _right = _left = this;`. -/
def erase (s : Heap) (this : Nat) : Heap :=
  let s1 := s.setLeft (s.right this) (s.left this)
  let s2 := s1.setRight (s1.left this) (s1.right this)
  let s3 := s2.setLeft this this
  s3.setRight this this

/-- The statement `_right->_left = _left->_right = this;` executed on node `n`:
the right operand `_left->_right = this` is performed first, then
`_right->_left` is assigned. -/
def relink (s : Heap) (n : Nat) : Heap :=
  let s1 := s.setRight (s.left n) n
  s1.setLeft (s1.right n) n

/-- The method `linked_ptr_base::swap(other)`, with its four branches. -/
def swap (s : Heap) (this other : Nat) : Heap :=
  if unique s this && unique s other then s
  else if unique s this && !unique s other then
    let s1 := s.setRight this (s.right other)
    let s2 := s1.setLeft this (s1.left other)
    relink s2 this
  else if !unique s this && unique s other then
    let s1 := s.setRight other (s.right this)
    let s2 := s1.setLeft other (s1.left this)
    relink s2 other
  else
    let r := s.right this
    let s1 := (s.setRight this (s.right other)).setRight other r
    let l := s1.left this
    let s2 := (s1.setLeft this (s1.left other)).setLeft other l
    relink (relink s2 this) other

end linked_ptr_base

namespace linked_ptr

/-- The method `get()`. -/
def get (s : Heap) (this : Nat) : Nat := s.ptr this

/-- The method `unique()` of the handle, which forwards to the base. -/
def unique (s : Heap) (this : Nat) : Bool := linked_ptr_base.unique s this

/-- The constructors `linked_ptr()` and `linked_ptr(nullptr)`: a self-linked node
with `_ptr = nullptr`. -/
def ctor_default (s : Heap) (this : Nat) : Heap :=
  (linked_ptr_base.ctor s this).setPtr this 0

/-- The constructor `linked_ptr(Y* ptr)`: a self-linked node with `_ptr = ptr`. -/
def ctor_ptr (s : Heap) (this p : Nat) : Heap :=
  (linked_ptr_base.ctor s this).setPtr this p

/-- The copy constructor `linked_ptr(const linked_ptr& rhs)`: the base and the
member initialiser run first, then `insert_after(rhs); _ptr = rhs.get();`. -/
def ctor_copy (s : Heap) (this rhs : Nat) : Heap :=
  let s0 := (linked_ptr_base.ctor s this).setPtr this 0
  let s1 := linked_ptr_base.insert_after s0 this rhs
  s1.setPtr this (get s1 rhs)

/-- The converting copy constructor `linked_ptr(const linked_ptr<Y>& rhs)`:
`insert_after(rhs); _ptr = static_cast<T*>(rhs.get());`, where `cast` is the
conversion `static_cast<T*>` of a `Y*`. -/
def ctor_copy_conv (cast : Nat → Nat) (s : Heap) (this rhs : Nat) : Heap :=
  let s0 := (linked_ptr_base.ctor s this).setPtr this 0
  let s1 := linked_ptr_base.insert_after s0 this rhs
  s1.setPtr this (cast (get s1 rhs))

/-- The branch shared by both `reset` overloads:
`if (unique()) delete _ptr; else erase();`. -/
def release (s : Heap) (this : Nat) : Heap :=
  if unique s this then s.delete (s.ptr this) else linked_ptr_base.erase s this

/-- The method `reset()`. -/
def reset (s : Heap) (this : Nat) : Heap :=
  (release s this).setPtr this 0

/-- The method `reset(Y* ptr)`. -/
def reset_ptr (s : Heap) (this p : Nat) : Heap :=
  (release s this).setPtr this p

/-- The destructor `~linked_ptr()`, which calls `reset()`. -/
def dtor (s : Heap) (this : Nat) : Heap := reset s this

/-- The copy assignment `operator=(rhs)`: `reset(rhs.get()); insert_after(rhs);`. -/
def assign (s : Heap) (this rhs : Nat) : Heap :=
  linked_ptr_base.insert_after (reset_ptr s this (get s rhs)) this rhs

/-- The method `linked_ptr::swap(other)`. -/
def swap (s : Heap) (this other : Nat) : Heap :=
  if s.ptr this = s.ptr other then s
  else
    let s1 := linked_ptr_base.swap s this other
    let p := s1.ptr this
    (s1.setPtr this (s1.ptr other)).setPtr other p

end linked_ptr

/-- One call of the public interface of a handle. -/
inductive Op where
  | ctor_default (h : Nat)
  | ctor_ptr (h p : Nat)
  | ctor_copy (h src : Nat)
  | assign (h src : Nat)
  | reset (h : Nat)
  | reset_ptr (h p : Nat)
  | swap (a b : Nat)
  | dtor (h : Nat)

/-- Effect of one public operation on memory. -/
def step (s : Heap) : Op → Heap
  | .ctor_default h => linked_ptr.ctor_default s h
  | .ctor_ptr h p => linked_ptr.ctor_ptr s h p
  | .ctor_copy h src => linked_ptr.ctor_copy s h src
  | .assign h src => linked_ptr.assign s h src
  | .reset h => linked_ptr.reset s h
  | .reset_ptr h p => linked_ptr.reset_ptr s h p
  | .swap a b => linked_ptr.swap s a b
  | .dtor h => linked_ptr.dtor s h

/-- Effect of a sequence of public operations, performed from left to right. -/
def run (s : Heap) (ops : List Op) : Heap := ops.foldl step s

/-- The link `x → y` of a ring: `x->_right == y` and `y->_left == x`. -/
def Link (s : Heap) (x y : Nat) : Prop := s.right x = y ∧ s.left y = x

instance (s : Heap) (x y : Nat) : Decidable (Link s x y) :=
  inferInstanceAs (Decidable (s.right x = y ∧ s.left y = x))

/-- Starting from `a`, every node is linked to the next node of the list. -/
def Linked (s : Heap) : Nat → List Nat → Prop
  | _, [] => True
  | a, b :: l => Link s a b ∧ Linked s b l

instance (s : Heap) : (a : Nat) → (l : List Nat) → Decidable (Linked s a l)
  | _, [] => inferInstanceAs (Decidable True)
  | a, b :: l =>
    have := instDecidableLinked s b l
    inferInstanceAs (Decidable (Link s a b ∧ Linked s b l))

/-- The nodes of `l`, in this order, form a well-formed ring: they are pairwise
distinct, each is linked to the next one, and the last is linked to the first. -/
def IsRing (s : Heap) : List Nat → Prop
  | [] => False
  | a :: t => (a :: t).Nodup ∧ Linked s a (t ++ [a])

instance (s : Heap) : (l : List Nat) → Decidable (IsRing s l)
  | [] => inferInstanceAs (Decidable False)
  | a :: t => inferInstanceAs (Decidable ((a :: t).Nodup ∧ Linked s a (t ++ [a])))

/-- Every handle of `l` holds the pointer `p`. -/
def Holds (s : Heap) (l : List Nat) (p : Nat) : Prop := ∀ n ∈ l, s.ptr n = p

instance (s : Heap) (l : List Nat) (p : Nat) : Decidable (Holds s l p) :=
  inferInstanceAs (Decidable (∀ n ∈ l, s.ptr n = p))

/-- A sequence of copy constructions `(new handle, source handle)`, performed from
left to right. -/
def copies (s : Heap) (cs : List (Nat × Nat)) : Heap :=
  cs.foldl (fun s c => linked_ptr.ctor_copy s c.1 c.2) s

/-- The handles of `hs` are destroyed one after the other, from left to right. -/
def destroy_all (s : Heap) (hs : List Nat) : Heap := hs.foldl linked_ptr.dtor s

/-- Every copy construction of the sequence creates a handle at an address that is
not in use and copies from a handle that already exists (`live` lists the handles that
exist before the sequence starts). -/
def ValidCopies : List Nat → List (Nat × Nat) → Prop
  | _, [] => True
  | live, c :: cs => c.1 ∉ live ∧ c.2 ∈ live ∧ ValidCopies (c.1 :: live) cs

instance : (live : List Nat) → (cs : List (Nat × Nat)) → Decidable (ValidCopies live cs)
  | _, [] => inferInstanceAs (Decidable True)
  | live, c :: cs =>
    have := instDecidableValidCopies (c.1 :: live) cs
    inferInstanceAs (Decidable (c.1 ∉ live ∧ c.2 ∈ live ∧ ValidCopies (c.1 :: live) cs))

/-- The conversion `explicit operator bool()`: `_ptr != nullptr`. -/
def operator_bool (s : Heap) (this : Nat) : Bool := s.ptr this != 0

/-- The conversion `static_cast<void *>(p)`: the address the pointer holds, whatever
its type. -/
def static_cast_void (p : Nat) : Nat := p

/-- The conversion of a pointer to a derived object into a pointer to a base subobject
that lies `off` bytes after the start of the derived object: a null pointer stays null,
any other address is moved by `off`. -/
def to_base (off : Nat) (p : Nat) : Nat := if p = 0 then 0 else p + off

/-- The function `operator==` for two handles of the same managed type:
`lhs.get() == rhs.get()`, where no pointer is converted. -/
def operator_eq (s : Heap) (lhs rhs : Nat) : Bool :=
  decide (linked_ptr.get s lhs = linked_ptr.get s rhs)

/-- The function `operator==` for handles of two managed types `T` and `Y`:
`lhs.get() == rhs.get()` compares the two pointers after their conversion to the common
pointer type, `castL` for the `T*` and `castR` for the `Y*` (the identity for the operand
that already has this type). -/
def operator_eq_conv (castL castR : Nat → Nat) (s : Heap) (lhs rhs : Nat) : Bool :=
  decide (castL (linked_ptr.get s lhs) = castR (linked_ptr.get s rhs))

/-- The function `operator!=`: `!(lhs == rhs)`. -/
def operator_ne (s : Heap) (lhs rhs : Nat) : Bool := !operator_eq s lhs rhs

/-- The function `operator<`, for handles of any two managed types:
`std::less<>()(static_cast<void *>(lhs.get()), static_cast<void *>(rhs.get()))`, the
total order of the addresses the two pointers hold, without conversion to a common
pointer type. -/
def operator_lt (s : Heap) (lhs rhs : Nat) : Bool :=
  decide (static_cast_void (linked_ptr.get s lhs) < static_cast_void (linked_ptr.get s rhs))

/-- The function `operator>`: `!(lhs < rhs)`. -/
def operator_gt (s : Heap) (lhs rhs : Nat) : Bool := !operator_lt s lhs rhs

/-- The function `operator<=`: `!(lhs > rhs)`. -/
def operator_le (s : Heap) (lhs rhs : Nat) : Bool := !operator_gt s lhs rhs

/-- The function `operator>=`: `!(lhs < rhs)`. -/
def operator_ge (s : Heap) (lhs rhs : Nat) : Bool := !operator_lt s lhs rhs

/-! ## Field access after a store -/

@[simp]
theorem setLeft_left (s : Heap) (n v x : Nat) :
    (s.setLeft n v).left x = if x = n then v else s.left x := by
  simp [Heap.setLeft, Function.update_apply]

@[simp]
theorem setLeft_right (s : Heap) (n v : Nat) : (s.setLeft n v).right = s.right := rfl

@[simp]
theorem setLeft_ptr (s : Heap) (n v : Nat) : (s.setLeft n v).ptr = s.ptr := rfl

@[simp]
theorem setLeft_freed (s : Heap) (n v : Nat) : (s.setLeft n v).freed = s.freed := rfl

@[simp]
theorem setRight_right (s : Heap) (n v x : Nat) :
    (s.setRight n v).right x = if x = n then v else s.right x := by
  simp [Heap.setRight, Function.update_apply]

@[simp]
theorem setRight_left (s : Heap) (n v : Nat) : (s.setRight n v).left = s.left := rfl

@[simp]
theorem setRight_ptr (s : Heap) (n v : Nat) : (s.setRight n v).ptr = s.ptr := rfl

@[simp]
theorem setRight_freed (s : Heap) (n v : Nat) : (s.setRight n v).freed = s.freed := rfl

@[simp]
theorem setPtr_ptr (s : Heap) (n v x : Nat) :
    (s.setPtr n v).ptr x = if x = n then v else s.ptr x := by
  simp [Heap.setPtr, Function.update_apply]

@[simp]
theorem setPtr_left (s : Heap) (n v : Nat) : (s.setPtr n v).left = s.left := rfl

@[simp]
theorem setPtr_right (s : Heap) (n v : Nat) : (s.setPtr n v).right = s.right := rfl

@[simp]
theorem setPtr_freed (s : Heap) (n v : Nat) : (s.setPtr n v).freed = s.freed := rfl

@[simp]
theorem delete_left (s : Heap) (p : Nat) : (s.delete p).left = s.left := by
  unfold Heap.delete; split <;> rfl

@[simp]
theorem delete_right (s : Heap) (p : Nat) : (s.delete p).right = s.right := by
  unfold Heap.delete; split <;> rfl

@[simp]
theorem delete_ptr (s : Heap) (p : Nat) : (s.delete p).ptr = s.ptr := by
  unfold Heap.delete; split <;> rfl

theorem delete_freed (s : Heap) (p : Nat) :
    (s.delete p).freed = s.freed ++ (if p = 0 then [] else [p]) := by
  unfold Heap.delete; split <;> simp

theorem unique_iff (s : Heap) (n : Nat) :
    linked_ptr.unique s n = true ↔ s.left n = n ∧ s.right n = n := by
  simp [linked_ptr.unique, linked_ptr_base.unique]

/-! ## The effect of the ring primitives on every field -/

theorem erase_right (s : Heap) (h x : Nat) :
    (linked_ptr_base.erase s h).right x =
      if x = h then h else if x = s.left h then s.right h else s.right x := by
  simp only [linked_ptr_base.erase, setRight_right, setLeft_right, setLeft_left, setRight_left]
  split_ifs <;> rfl

theorem erase_left (s : Heap) (h y : Nat) :
    (linked_ptr_base.erase s h).left y =
      if y = h then h else if y = s.right h then s.left h else s.left y := by
  simp only [linked_ptr_base.erase, setRight_right, setLeft_right, setLeft_left, setRight_left]

@[simp]
theorem erase_ptr (s : Heap) (h : Nat) : (linked_ptr_base.erase s h).ptr = s.ptr := rfl

@[simp]
theorem erase_freed (s : Heap) (h : Nat) :
    (linked_ptr_base.erase s h).freed = s.freed := rfl

theorem insert_after_right (s : Heap) (n h x : Nat) :
    (linked_ptr_base.insert_after s n h).right x =
      if x = h then n else if x = n then s.right h else s.right x := by
  simp only [linked_ptr_base.insert_after, setRight_right, setLeft_right]

theorem insert_after_left (s : Heap) (n h y : Nat) (hn : n ≠ h) :
    (linked_ptr_base.insert_after s n h).left y =
      if y = s.right h then n else if y = n then h else s.left y := by
  simp only [linked_ptr_base.insert_after, setRight_right, setLeft_right, setLeft_left,
    setRight_left, if_neg hn, if_true]

@[simp]
theorem insert_after_ptr (s : Heap) (n h : Nat) :
    (linked_ptr_base.insert_after s n h).ptr = s.ptr := rfl

@[simp]
theorem insert_after_freed (s : Heap) (n h : Nat) :
    (linked_ptr_base.insert_after s n h).freed = s.freed := rfl

/-! ## Chains of links -/

theorem linked_retarget {s s' : Heap} {z z' : Nat} :
    ∀ (l : List Nat) (a : Nat), Linked s a (l ++ [z]) →
      (∀ x ∈ a :: l, ∀ y ∈ l, Link s x y → Link s' x y) →
      (∀ x ∈ a :: l, Link s x z → Link s' x z') →
      Linked s' a (l ++ [z'])
  | [], a, h, _, hz => ⟨hz a (List.mem_singleton.mpr rfl) h.1, trivial⟩
  | b :: l, a, h, hin, hz => by
    refine ⟨hin a (List.mem_cons_self _ _) b (List.mem_cons_self _ _) h.1, ?_⟩
    refine linked_retarget l b h.2 ?_ ?_
    · intro x hx y hy hxy
      exact hin x (List.mem_cons_of_mem _ hx) y (List.mem_cons_of_mem _ hy) hxy
    · intro x hx hxz
      exact hz x (List.mem_cons_of_mem _ hx) hxz

theorem linked_split {s : Heap} {b : Nat} {l₂ : List Nat} :
    ∀ (l₁ : List Nat) (a : Nat),
      Linked s a (l₁ ++ b :: l₂) ↔ Linked s a (l₁ ++ [b]) ∧ Linked s b l₂
  | [], a => by simp [Linked]
  | c :: l₁, a => by
    have ih := @linked_split s b l₂ l₁ c
    show Link s a c ∧ Linked s c (l₁ ++ b :: l₂) ↔
      (Link s a c ∧ Linked s c (l₁ ++ [b])) ∧ Linked s b l₂
    rw [ih, and_assoc]

/-- The last link of a chain: some node of the chain is linked to its end. -/
theorem linked_last {s : Heap} {z : Nat} :
    ∀ (l : List Nat) (a : Nat), Linked s a (l ++ [z]) → ∃ x ∈ a :: l, Link s x z
  | [], a, h => ⟨a, List.mem_singleton.mpr rfl, h.1⟩
  | b :: l, _, h => by
    obtain ⟨x, hx, hxz⟩ := linked_last l b h.2
    exact ⟨x, List.mem_cons_of_mem _ hx, hxz⟩

/-- Links only depend on the fields of the nodes of the chain. -/
theorem linked_congr {s s' : Heap} (l : List Nat) (a z : Nat)
    (hl : ∀ x ∈ l ++ [z], s'.left x = s.left x) (hr : ∀ x ∈ a :: l, s'.right x = s.right x)
    (h : Linked s a (l ++ [z])) : Linked s' a (l ++ [z]) := by
  refine linked_retarget l a h ?_ ?_
  · intro x hx y hy hxy
    exact ⟨(hr x hx).trans hxy.1, (hl y (List.mem_append_left _ hy)).trans hxy.2⟩
  · intro x hx hxy
    exact ⟨(hr x hx).trans hxy.1, (hl z (by simp)).trans hxy.2⟩

/-! ## Rings -/

theorem isRing_ne_nil {s : Heap} {l : List Nat} (h : IsRing s l) : l ≠ [] := by
  cases l with
  | nil => exact absurd h id
  | cons a t => simp

theorem isRing_nodup {s : Heap} {l : List Nat} (h : IsRing s l) : l.Nodup := by
  cases l with
  | nil => exact absurd h id
  | cons a t => exact h.1

/-- A ring only depends on the link fields of its own nodes. -/
theorem isRing_congr {s s' : Heap} {l : List Nat}
    (hl : ∀ x ∈ l, s'.left x = s.left x) (hr : ∀ x ∈ l, s'.right x = s.right x)
    (h : IsRing s l) : IsRing s' l := by
  cases l with
  | nil => exact absurd h id
  | cons a t =>
    refine ⟨h.1, linked_congr t a a ?_ hr h.2⟩
    intro x hx
    apply hl
    simp only [List.mem_append, List.mem_singleton] at hx
    rcases hx with hx | hx
    · exact List.mem_cons_of_mem _ hx
    · subst hx; exact List.mem_cons_self _ _

/-- The head of a ring is linked to its right neighbour. -/
theorem isRing_link_right {s : Heap} {h : Nat} {t : List Nat} (hr : IsRing s (h :: t)) :
    Link s h (s.right h) ∧ s.right h ∈ h :: t := by
  cases t with
  | nil =>
    have := hr.2.1
    exact ⟨⟨rfl, by rw [this.1]; exact this.2⟩, by rw [this.1]; simp⟩
  | cons b t =>
    have := hr.2.1
    exact ⟨⟨rfl, by rw [this.1]; exact this.2⟩, by rw [this.1]; simp⟩

/-- The left neighbour of the head of a ring is linked to the head. -/
theorem isRing_link_left {s : Heap} {h : Nat} {t : List Nat} (hr : IsRing s (h :: t)) :
    Link s (s.left h) h ∧ s.left h ∈ h :: t := by
  obtain ⟨x, hx, hxz⟩ := linked_last t h hr.2
  have : s.left h = x := hxz.2
  rw [this]
  exact ⟨hxz, hx⟩

/-- A singleton ring is exactly a handle for which `unique()` holds. -/
theorem isRing_singleton_iff (s : Heap) (h : Nat) :
    IsRing s [h] ↔ linked_ptr.unique s h = true := by
  simp [IsRing, Linked, Link, unique_iff, and_comm]

/-- A member of a ring with at least two nodes is not unique. -/
theorem isRing_not_unique {s : Heap} {h b : Nat} {t : List Nat} (hr : IsRing s (h :: b :: t)) :
    linked_ptr.unique s h = false := by
  have hb : s.right h = b := hr.2.1.1
  have hne : h ≠ b := by
    have := hr.1
    simp only [List.nodup_cons, List.mem_cons, not_or] at this
    exact this.1.1
  rw [Bool.eq_false_iff]
  intro hu
  rw [unique_iff] at hu
  exact hne (hu.2.symm.trans hb)

/-- A ring may be listed starting from any of its nodes. -/
theorem isRing_rotate {s : Heap} {a x : Nat} {u l₂ : List Nat}
    (h : IsRing s (a :: u ++ x :: l₂)) : IsRing s (x :: l₂ ++ a :: u) := by
  obtain ⟨hnd, hch⟩ := h
  refine ⟨?_, ?_⟩
  · have hp : (x :: l₂ ++ a :: u).Perm (a :: u ++ x :: l₂) := List.perm_append_comm
    exact hp.nodup_iff.mpr hnd
  · have h1 : Linked s a (u ++ x :: (l₂ ++ [a])) := by simpa using hch
    rw [linked_split] at h1
    have h2 : Linked s x (l₂ ++ a :: (u ++ [x])) := by
      rw [linked_split]; exact ⟨h1.2, h1.1⟩
    simpa using h2

theorem isRing_rotate_to {s : Heap} {l : List Nat} {x : Nat} (h : IsRing s l) (hx : x ∈ l) :
    ∃ t, IsRing s (x :: t) ∧ (x :: t).Perm l := by
  obtain ⟨l₁, l₂, rfl⟩ := List.append_of_mem hx
  cases l₁ with
  | nil => exact ⟨l₂, h, List.Perm.refl _⟩
  | cons a u =>
    refine ⟨l₂ ++ a :: u, isRing_rotate h, ?_⟩
    have hp : (x :: l₂ ++ a :: u).Perm (a :: u ++ x :: l₂) := List.perm_append_comm
    exact hp

/-! ## Splicing a node into and out of a ring -/

/-- Splicing `n` after the head `h` of a ring gives the ring with `n` as the right
neighbour of `h`. -/
theorem isRing_insert_after {s : Heap} {h n : Nat} {t : List Nat}
    (hr : IsRing s (h :: t)) (hn : n ∉ h :: t) :
    IsRing (linked_ptr_base.insert_after s n h) (h :: n :: t) := by
  have hnh : n ≠ h := fun e => hn (e ▸ List.mem_cons_self _ _)
  have hnd := hr.1
  obtain ⟨hlk, hmem⟩ := isRing_link_right hr
  have hnR : n ≠ s.right h := fun e => hn (e ▸ hmem)
  refine ⟨?_, ?_, ?_⟩
  · simp only [List.nodup_cons, List.mem_cons, not_or] at hnd hn ⊢
    exact ⟨⟨fun e => hn.1 e.symm, hnd.1⟩, hn.2, hnd.2⟩
  · refine ⟨by simp [insert_after_right], ?_⟩
    rw [insert_after_left _ _ _ _ hnh, if_neg hnR, if_pos rfl]
  · cases t with
    | nil =>
      have hhh : s.right h = h := hr.2.1.1
      refine ⟨⟨?_, ?_⟩, trivial⟩
      · rw [insert_after_right, if_neg hnh, if_pos rfl, hhh]
      · rw [insert_after_left _ _ _ _ hnh, if_pos hhh.symm]
    | cons b t =>
      have hb : s.right h = b := hr.2.1.1
      have hhb : h ∉ b :: t := (List.nodup_cons.mp hnd).1
      have hbt : b ∉ t := (List.nodup_cons.mp (List.nodup_cons.mp hnd).2).1
      refine ⟨⟨?_, ?_⟩, ?_⟩
      · rw [insert_after_right, if_neg hnh, if_pos rfl, hb]
      · rw [insert_after_left _ _ _ _ hnh, if_pos hb.symm]
      · refine linked_congr t b h ?_ ?_ hr.2.2
        · intro y hy
          have hyb : y ≠ b := by
            rintro rfl
            simp only [List.mem_append, List.mem_singleton] at hy
            rcases hy with hy | hy
            · exact hbt hy
            · exact hhb (hy ▸ List.mem_cons_self _ _)
          have hyn : y ≠ n := by
            rintro rfl
            apply hn
            simp only [List.mem_append, List.mem_singleton] at hy
            rcases hy with hy | hy
            · exact List.mem_cons_of_mem _ (List.mem_cons_of_mem _ hy)
            · exact hy ▸ List.mem_cons_self _ _
          rw [insert_after_left _ _ _ _ hnh, hb, if_neg hyb, if_neg hyn]
        · intro x hx
          have hxh : x ≠ h := fun e => hhb (e ▸ hx)
          have hxn : x ≠ n := fun e => hn (e ▸ List.mem_cons_of_mem _ hx)
          rw [insert_after_right, if_neg hxh, if_neg hxn]

/-- Splicing the head `h` out of a ring with at least two nodes leaves the ring of
the other nodes. -/
theorem isRing_erase {s : Heap} {h b : Nat} {t : List Nat} (hr : IsRing s (h :: b :: t)) :
    IsRing (linked_ptr_base.erase s h) (b :: t) := by
  have hnd := hr.1
  have hb : s.right h = b := hr.2.1.1
  have hhb : h ∉ b :: t := (List.nodup_cons.mp hnd).1
  have hbt : b ∉ t := (List.nodup_cons.mp (List.nodup_cons.mp hnd).2).1
  have hbh : b ≠ h := fun e => hhb (e ▸ List.mem_cons_self _ _)
  obtain ⟨hll, -⟩ := isRing_link_left hr
  refine ⟨(List.nodup_cons.mp hnd).2, ?_⟩
  refine linked_retarget t b hr.2.2 ?_ ?_
  · intro x hx y hy hxy
    have hxh : x ≠ h := fun e => hhb (e ▸ hx)
    have hyh : y ≠ h := fun e => hhb (e ▸ List.mem_cons_of_mem _ hy)
    have hyb : y ≠ b := fun e => hbt (e ▸ hy)
    have hxl : x ≠ s.left h := by
      rintro rfl
      exact hyh (hxy.1.symm.trans hll.1)
    refine ⟨?_, ?_⟩
    · rw [erase_right, if_neg hxh, if_neg hxl]; exact hxy.1
    · rw [erase_left, if_neg hyh, hb, if_neg hyb]; exact hxy.2
  · intro x hx hxh
    have hxne : x ≠ h := fun e => hhb (e ▸ hx)
    refine ⟨?_, ?_⟩
    · rw [erase_right, if_neg hxne, if_pos hxh.2.symm, hb]
    · rw [erase_left, if_neg hbh, if_pos hb.symm]; exact hxh.2

/-- After `erase()` the node is self-linked. -/
theorem erase_unique (s : Heap) (h : Nat) :
    linked_ptr.unique (linked_ptr_base.erase s h) h = true := by
  rw [unique_iff, erase_left, erase_right, if_pos rfl, if_pos rfl]
  exact ⟨rfl, rfl⟩

/-- The method `erase()` only writes link fields of the node and of its two neighbours. -/
theorem isRing_erase_frame {s : Heap} {h : Nat} {t l : List Nat} (hr : IsRing s (h :: t))
    (hl : IsRing s l) (hd : ∀ x ∈ l, x ∉ h :: t) : IsRing (linked_ptr_base.erase s h) l := by
  obtain ⟨-, hR⟩ := isRing_link_right hr
  obtain ⟨-, hL⟩ := isRing_link_left hr
  refine isRing_congr ?_ ?_ hl
  · intro x hx
    have h1 : x ≠ h := fun e => hd x hx (e ▸ List.mem_cons_self _ _)
    have h2 : x ≠ s.right h := fun e => hd x hx (e ▸ hR)
    rw [erase_left, if_neg h1, if_neg h2]
  · intro x hx
    have h1 : x ≠ h := fun e => hd x hx (e ▸ List.mem_cons_self _ _)
    have h2 : x ≠ s.left h := fun e => hd x hx (e ▸ hL)
    rw [erase_right, if_neg h1, if_neg h2]

/-- The method `insert_after(rhs)` only writes link fields of the node, of `rhs` and of
the right neighbour of `rhs`. -/
theorem isRing_insert_after_frame {s : Heap} {h n : Nat} {t l : List Nat}
    (hr : IsRing s (h :: t)) (hn : n ≠ h) (hl : IsRing s l) (hnl : n ∉ l)
    (hd : ∀ x ∈ l, x ∉ h :: t) : IsRing (linked_ptr_base.insert_after s n h) l := by
  obtain ⟨-, hR⟩ := isRing_link_right hr
  refine isRing_congr ?_ ?_ hl
  · intro x hx
    have h1 : x ≠ n := fun e => hnl (e ▸ hx)
    have h2 : x ≠ s.right h := fun e => hd x hx (e ▸ hR)
    rw [insert_after_left _ _ _ _ hn, if_neg h2, if_neg h1]
  · intro x hx
    have h1 : x ≠ n := fun e => hnl (e ▸ hx)
    have h2 : x ≠ h := fun e => hd x hx (e ▸ List.mem_cons_self _ _)
    rw [insert_after_right, if_neg h2, if_neg h1]

/-! ## The handle operations -/

theorem isRing_setPtr {s : Heap} {l : List Nat} (n v : Nat) (h : IsRing s l) :
    IsRing (s.setPtr n v) l :=
  @isRing_congr s (s.setPtr n v) l (fun _ _ => rfl) (fun _ _ => rfl) h

theorem release_unique {s : Heap} {h : Nat} (hu : linked_ptr.unique s h = true) :
    linked_ptr.release s h = s.delete (s.ptr h) := by
  simp [linked_ptr.release, hu]

theorem release_shared {s : Heap} {h : Nat} (hu : linked_ptr.unique s h = false) :
    linked_ptr.release s h = linked_ptr_base.erase s h := by
  simp [linked_ptr.release, hu]

theorem reset_ptr_ptr (s : Heap) (h p x : Nat) :
    (linked_ptr.reset_ptr s h p).ptr x = if x = h then p else s.ptr x := by
  unfold linked_ptr.reset_ptr linked_ptr.release
  split <;> simp

/-- Both overloads of `reset` on a unique handle: the object is deleted, the links
are not touched. -/
theorem reset_ptr_unique {s : Heap} {h : Nat} (p : Nat) (hu : linked_ptr.unique s h = true) :
    (linked_ptr.reset_ptr s h p).freed = s.freed ++ (if s.ptr h = 0 then [] else [s.ptr h]) ∧
    (linked_ptr.reset_ptr s h p).left = s.left ∧
    (linked_ptr.reset_ptr s h p).right = s.right := by
  unfold linked_ptr.reset_ptr
  rw [release_unique hu]
  exact ⟨by simp [delete_freed], by simp, by simp⟩

/-- Both overloads of `reset` on a shared handle: nothing is deleted, the handle is
spliced out of its ring and the other nodes stay a ring. -/
theorem reset_ptr_shared {s : Heap} {h b : Nat} {t : List Nat} (p : Nat)
    (hr : IsRing s (h :: b :: t)) :
    (linked_ptr.reset_ptr s h p).freed = s.freed ∧
    IsRing (linked_ptr.reset_ptr s h p) (b :: t) ∧
    linked_ptr.unique (linked_ptr.reset_ptr s h p) h = true ∧
    Link (linked_ptr.reset_ptr s h p) (s.left h) (s.right h) := by
  have hu := isRing_not_unique hr
  have hb : s.right h = b := hr.2.1.1
  have hbh : b ≠ h := by
    have := hr.1
    simp only [List.nodup_cons, List.mem_cons, not_or] at this
    exact fun e => this.1.1 e.symm
  obtain ⟨hll, -⟩ := isRing_link_left hr
  have hlh : s.left h ≠ h := by
    intro e
    rw [e] at hll
    exact hbh (hb.symm.trans hll.1)
  unfold linked_ptr.reset_ptr
  rw [release_shared hu]
  refine ⟨rfl, isRing_setPtr _ _ (isRing_erase hr), ?_, ?_, ?_⟩
  · have := erase_unique s h
    rw [unique_iff] at this ⊢
    exact this
  · show (linked_ptr_base.erase s h).right (s.left h) = s.right h
    rw [erase_right, if_neg hlh, if_pos rfl]
  · show (linked_ptr_base.erase s h).left (s.right h) = s.left h
    rw [erase_left, hb, if_neg hbh, if_pos rfl]

/-- A shared `reset` leaves every ring that is disjoint from the handle's ring intact. -/
theorem reset_ptr_frame {s : Heap} {h : Nat} {t l : List Nat} (p : Nat)
    (hr : IsRing s (h :: t)) (hl : IsRing s l) (hd : ∀ x ∈ l, x ∉ h :: t) :
    IsRing (linked_ptr.reset_ptr s h p) l := by
  unfold linked_ptr.reset_ptr linked_ptr.release
  split
  · exact isRing_setPtr _ _ (isRing_congr (by simp) (by simp) hl)
  · exact isRing_setPtr _ _ (isRing_erase_frame hr hl hd)

theorem ctor_copy_right (s : Heap) (n h x : Nat) (hn : n ≠ h) :
    (linked_ptr.ctor_copy s n h).right x =
      if x = h then n else if x = n then s.right h else s.right x := by
  have hhn : h ≠ n := fun e => hn e.symm
  simp only [linked_ptr.ctor_copy, linked_ptr_base.ctor, setPtr_right, insert_after_right,
    setRight_right, setLeft_right, if_neg hhn]
  split_ifs <;> simp_all

theorem ctor_copy_left (s : Heap) (n h y : Nat) (hn : n ≠ h) :
    (linked_ptr.ctor_copy s n h).left y =
      if y = s.right h then n else if y = n then h else s.left y := by
  have hhn : h ≠ n := fun e => hn e.symm
  simp only [linked_ptr.ctor_copy, linked_ptr_base.ctor, setPtr_left,
    insert_after_left _ _ _ _ hn, setRight_right, setLeft_right, setPtr_right, setRight_left,
    setLeft_left, if_neg hhn]
  split_ifs <;> simp_all

theorem ctor_copy_ptr (s : Heap) (n h x : Nat) (hn : n ≠ h) :
    (linked_ptr.ctor_copy s n h).ptr x = if x = n then s.ptr h else s.ptr x := by
  have hhn : h ≠ n := fun e => hn e.symm
  simp only [linked_ptr.ctor_copy, linked_ptr.get, setPtr_ptr, insert_after_ptr, if_neg hhn]
  split_ifs <;> rfl

@[simp]
theorem ctor_copy_freed (s : Heap) (n h : Nat) :
    (linked_ptr.ctor_copy s n h).freed = s.freed := rfl

/-- Copy construction from the head of a ring splices the new handle right after it. -/
theorem isRing_ctor_copy {s : Heap} {h n : Nat} {t : List Nat}
    (hr : IsRing s (h :: t)) (hn : n ∉ h :: t) :
    IsRing (linked_ptr.ctor_copy s n h) (h :: n :: t) := by
  unfold linked_ptr.ctor_copy
  refine isRing_setPtr _ _ (isRing_insert_after ?_ hn)
  refine isRing_setPtr _ _ (isRing_congr ?_ ?_ hr)
  · intro x hx
    have : x ≠ n := fun e => hn (e ▸ hx)
    simp [linked_ptr_base.ctor, this]
  · intro x hx
    have : x ≠ n := fun e => hn (e ▸ hx)
    simp [linked_ptr_base.ctor, this]

/-! ## A ring built by copies and destroyed in any order -/

theorem holds_ctor_copy {s : Heap} {h n p : Nat} {t : List Nat} (hn : n ∉ h :: t)
    (hp : Holds s (h :: t) p) : Holds (linked_ptr.ctor_copy s n h) (h :: n :: t) p := by
  have hnh : n ≠ h := fun e => hn (e ▸ List.mem_cons_self _ _)
  intro x hx
  rw [ctor_copy_ptr _ _ _ _ hnh]
  split_ifs with hxn
  · exact hp h (List.mem_cons_self _ _)
  · apply hp
    simp only [List.mem_cons] at hx ⊢
    rcases hx with hx | hx | hx
    · exact Or.inl hx
    · exact absurd hx hxn
    · exact Or.inr hx

theorem holds_perm {s : Heap} {l l' : List Nat} {p : Nat} (hp : l.Perm l')
    (h : Holds s l p) : Holds s l' p :=
  fun x hx => h x (hp.mem_iff.mpr hx)

/-- The copies keep all handles in one ring that holds the same pointer, and free
nothing. -/
theorem copies_ring (p : Nat) :
    ∀ (cs : List (Nat × Nat)) (s : Heap) (live l : List Nat),
      IsRing s l → l.Perm live → Holds s l p → ValidCopies live cs →
      ∃ l', IsRing (copies s cs) l' ∧ l'.Perm (live ++ cs.map Prod.fst) ∧
        Holds (copies s cs) l' p ∧ (copies s cs).freed = s.freed
  | [], s, live, l, hr, hperm, hp, _ => ⟨l, hr, by simpa using hperm, hp, rfl⟩
  | c :: cs, s, live, l, hr, hperm, hp, hv => by
    obtain ⟨hfresh, hsrc, hv'⟩ := hv
    obtain ⟨t, hrt, hpt⟩ := isRing_rotate_to hr (hperm.mem_iff.mpr hsrc)
    have hn : c.1 ∉ c.2 :: t := fun hm => hfresh (hperm.mem_iff.mp (hpt.mem_iff.mp hm))
    have hr' := isRing_ctor_copy hrt hn
    have hp' := holds_ctor_copy hn (holds_perm hpt.symm hp)
    have hperm' : (c.2 :: c.1 :: t).Perm (c.1 :: live) :=
      (List.Perm.swap _ _ _).trans ((hpt.trans hperm).cons _)
    obtain ⟨l', h1, h2, h3, h4⟩ := copies_ring p cs _ (c.1 :: live) _ hr' hperm' hp' hv'
    refine ⟨l', h1, h2.trans ?_, h3, h4⟩
    simp only [List.map_cons]
    exact (List.perm_middle).symm

/-- Destroying all handles of a ring, in any order, frees the pointer they hold once,
at the last destruction. -/
theorem destroy_all_ring (p : Nat) (hp0 : p ≠ 0) :
    ∀ (order : List Nat) (s : Heap) (l : List Nat),
      IsRing s l → l.Perm order → Holds s l p →
      (destroy_all s order).freed = s.freed ++ [p] ∧
        ∀ k, k < order.length → (destroy_all s (order.take k)).freed = s.freed
  | [], s, l, hr, hperm, _ => absurd hperm.eq_nil (isRing_ne_nil hr)
  | x :: rest, s, l, hr, hperm, hp => by
    obtain ⟨t, hrt, hpt⟩ := isRing_rotate_to hr (hperm.mem_iff.mpr (List.mem_cons_self _ _))
    have hrest : t.Perm rest := (List.perm_cons x).mp (hpt.trans hperm)
    have hpx : s.ptr x = p := hp x (hperm.mem_iff.mpr (List.mem_cons_self _ _))
    cases t with
    | nil =>
      have hnil : rest = [] := hrest.symm.eq_nil
      subst hnil
      have hu := (isRing_singleton_iff s x).mp hrt
      have hf := (reset_ptr_unique 0 hu).1
      rw [hpx, if_neg hp0] at hf
      refine ⟨hf, ?_⟩
      intro k hk
      have : k = 0 := by simpa using hk
      subst this
      rfl
    | cons b t =>
      obtain ⟨hf, hr', -, -⟩ := reset_ptr_shared 0 hrt
      have hxt : x ∉ b :: t := (List.nodup_cons.mp (isRing_nodup hrt)).1
      have hp' : Holds (linked_ptr.reset_ptr s x 0) (b :: t) p := by
        intro y hy
        have hyx : y ≠ x := fun e => hxt (e ▸ hy)
        rw [reset_ptr_ptr, if_neg hyx]
        exact hp y (hpt.mem_iff.mp (List.mem_cons_of_mem _ hy))
      obtain ⟨h1, h2⟩ := destroy_all_ring p hp0 rest _ (b :: t) hr' hrest hp'
      refine ⟨h1.trans (by rw [hf]), ?_⟩
      intro k hk
      cases k with
      | zero => rfl
      | succ k =>
        have hk' : k < rest.length := by simpa using hk
        exact (h2 k hk').trans hf

theorem ctor_copy_not_unique {s : Heap} {h n : Nat} {t : List Nat}
    (hr : IsRing s (h :: t)) (hn : n ∉ h :: t) :
    linked_ptr.unique (linked_ptr.ctor_copy s n h) h = false ∧
    linked_ptr.unique (linked_ptr.ctor_copy s n h) n = false := by
  have hnh : n ≠ h := fun e => hn (e ▸ List.mem_cons_self _ _)
  have hr' := isRing_ctor_copy hr hn
  refine ⟨isRing_not_unique hr', ?_⟩
  rw [Bool.eq_false_iff]
  intro hu
  rw [unique_iff] at hu
  have hl : (linked_ptr.ctor_copy s n h).left n = h := hr'.2.1.2
  exact hnh (hu.1.symm.trans hl)

/-- Copy construction followed by destruction of the copy restores every field of
every other node. -/
theorem copy_dtor_restores {s : Heap} {h n : Nat} {t : List Nat}
    (hr : IsRing s (h :: t)) (hn : n ∉ h :: t) (x : Nat) (hx : x ≠ n) :
    (linked_ptr.dtor (linked_ptr.ctor_copy s n h) n).left x = s.left x ∧
    (linked_ptr.dtor (linked_ptr.ctor_copy s n h) n).right x = s.right x ∧
    (linked_ptr.dtor (linked_ptr.ctor_copy s n h) n).ptr x = s.ptr x := by
  have hnh : n ≠ h := fun e => hn (e ▸ List.mem_cons_self _ _)
  obtain ⟨hlk, hmem⟩ := isRing_link_right hr
  have hnR : n ≠ s.right h := fun e => hn (e ▸ hmem)
  have hu := (ctor_copy_not_unique hr hn).2
  have hR : (linked_ptr.ctor_copy s n h).right n = s.right h := by
    rw [ctor_copy_right _ _ _ _ hnh, if_neg hnh, if_pos rfl]
  have hL : (linked_ptr.ctor_copy s n h).left n = h := by
    rw [ctor_copy_left _ _ _ _ hnh, if_neg hnR, if_pos rfl]
  show (linked_ptr.reset_ptr (linked_ptr.ctor_copy s n h) n 0).left x = s.left x ∧
    (linked_ptr.reset_ptr (linked_ptr.ctor_copy s n h) n 0).right x = s.right x ∧
    (linked_ptr.reset_ptr (linked_ptr.ctor_copy s n h) n 0).ptr x = s.ptr x
  refine ⟨?_, ?_, ?_⟩
  · unfold linked_ptr.reset_ptr
    rw [release_shared hu, setPtr_left, erase_left, if_neg hx, hR, hL,
      ctor_copy_left _ _ _ _ hnh]
    split_ifs with h1
    · rw [h1]; exact hlk.2.symm
    · rfl
  · unfold linked_ptr.reset_ptr
    rw [release_shared hu, setPtr_right, erase_right, if_neg hx, hR, hL,
      ctor_copy_right _ _ _ _ hnh]
    split_ifs with h1
    · rw [h1]
    · rfl
  · rw [reset_ptr_ptr, if_neg hx, ctor_copy_ptr _ _ _ _ hnh, if_neg hx]

/-! ## The claims -/

/-- C1: a handle constructed from a non-null raw pointer `p`, followed by any number of
copy constructions, each from a handle that already exists, gives `N` handles; destroying
them in any order frees `p` exactly once in total, and nothing is freed before the last
of the `N` destructions. -/
theorem C1_ring_frees_once_at_last_destruction (s0 : Heap) (h p : Nat)
    (cs : List (Nat × Nat)) (order : List Nat) (hp : p ≠ 0) (hv : ValidCopies [h] cs)
    (hperm : order.Perm (h :: cs.map Prod.fst)) :
    (destroy_all (copies (linked_ptr.ctor_ptr s0 h p) cs) order).freed = s0.freed ++ [p] ∧
    ∀ k, k < order.length →
      (destroy_all (copies (linked_ptr.ctor_ptr s0 h p) cs) (order.take k)).freed
        = s0.freed := by
  have hr0 : IsRing (linked_ptr.ctor_ptr s0 h p) [h] := by
    rw [isRing_singleton_iff, unique_iff]
    simp [linked_ptr.ctor_ptr, linked_ptr_base.ctor]
  have hp0 : Holds (linked_ptr.ctor_ptr s0 h p) [h] p := by
    intro x hx
    have : x = h := by simpa using hx
    subst this
    simp [linked_ptr.ctor_ptr]
  obtain ⟨l, h1, h2, h3, h4⟩ := copies_ring p cs _ [h] [h] hr0 (List.Perm.refl _) hp0 hv
  have h2' : l.Perm order := h2.trans hperm.symm
  obtain ⟨h5, h6⟩ := destroy_all_ring p hp order _ l h1 h2' h3
  have hf : (copies (linked_ptr.ctor_ptr s0 h p) cs).freed = s0.freed := h4
  rw [hf] at h5 h6
  exact ⟨h5, h6⟩

theorem C1_witness :
    ValidCopies [1] [(2, 1), (3, 1), (4, 2)] ∧
    (destroy_all (copies (linked_ptr.ctor_ptr Heap.empty 1 7) [(2, 1), (3, 1), (4, 2)])
      [3, 1, 4, 2]).freed = [7] :=
  ⟨by decide,
    (C1_ring_frees_once_at_last_destruction Heap.empty 1 7 [(2, 1), (3, 1), (4, 2)]
      [3, 1, 4, 2] (by decide) (by decide) (by decide)).1⟩

/-- C2: the code at two sequences of public operations that start from no handles.
Self-assignment of a unique handle deletes its object although the handle keeps the
pointer, and destroying the handle deletes the object a second time; self-assignment of
a shared handle splits it from its ring, so that destroying it deletes the object while
its former sibling still holds the pointer.  After a swap of a unique handle with a shared
one, destroying all three handles never deletes the object of the unique handle. -/
theorem C2_double_free_and_leak_at_inputs :
    (run Heap.empty [.ctor_ptr 1 7, .assign 1 1]).freed = [7] ∧
    linked_ptr.get (run Heap.empty [.ctor_ptr 1 7, .assign 1 1]) 1 = 7 ∧
    (run Heap.empty [.ctor_ptr 1 7, .assign 1 1, .dtor 1]).freed = [7, 7] ∧
    (run Heap.empty [.ctor_ptr 1 7, .ctor_copy 2 1, .assign 1 1, .dtor 1]).freed = [7] ∧
    linked_ptr.get
      (run Heap.empty [.ctor_ptr 1 7, .ctor_copy 2 1, .assign 1 1, .dtor 1]) 2 = 7 ∧
    (run Heap.empty
      [.ctor_ptr 1 7, .ctor_copy 2 1, .assign 1 1, .dtor 1, .dtor 2]).freed = [7, 7] ∧
    (run Heap.empty [.ctor_ptr 1 7, .ctor_ptr 2 8, .ctor_copy 3 2, .swap 1 2,
      .dtor 1, .dtor 2, .dtor 3]).freed = [8] := by
  decide

/-- C3: the code after `swap` between a unique handle (address 1) and a handle of a
ring of two (addresses 2 and 3), in either direction.  Handle 2 keeps its old links to
handle 3 while handle 3 is linked to handle 1 on both sides, so `2.right.left` is 1, not
2, and no list of nodes that contains handle 2 is a well-formed ring starting there;
handle 2 also holds a pointer different from that of the node it is linked to. -/
theorem C3_swap_breaks_ring_at_input :
    (run Heap.empty [.ctor_ptr 1 7, .ctor_ptr 2 8, .ctor_copy 3 2, .swap 1 2]).right 2 = 3 ∧
    (run Heap.empty [.ctor_ptr 1 7, .ctor_ptr 2 8, .ctor_copy 3 2, .swap 1 2]).left 3 = 1 ∧
    (run Heap.empty [.ctor_ptr 1 7, .ctor_ptr 2 8, .ctor_copy 3 2, .swap 1 2]).ptr 2 = 7 ∧
    (run Heap.empty [.ctor_ptr 1 7, .ctor_ptr 2 8, .ctor_copy 3 2, .swap 1 2]).ptr 3 = 8 ∧
    linked_ptr.unique
      (run Heap.empty [.ctor_ptr 1 7, .ctor_ptr 2 8, .ctor_copy 3 2, .swap 1 2]) 2 = false ∧
    (run Heap.empty [.ctor_ptr 1 7, .ctor_ptr 2 8, .ctor_copy 3 2, .swap 2 1]).right 2 = 3 ∧
    (run Heap.empty [.ctor_ptr 1 7, .ctor_ptr 2 8, .ctor_copy 3 2, .swap 2 1]).left 3 = 1 ∧
    ∀ t, ¬ IsRing
      (run Heap.empty [.ctor_ptr 1 7, .ctor_ptr 2 8, .ctor_copy 3 2, .swap 1 2]) (2 :: t) := by
  refine ⟨by decide, by decide, by decide, by decide, by decide, by decide, by decide, ?_⟩
  intro t ht
  have h := (isRing_link_right ht).1
  have h2 : (run Heap.empty
    [.ctor_ptr 1 7, .ctor_ptr 2 8, .ctor_copy 3 2, .swap 1 2]).right 2 = 3 := by decide
  have h3 : (run Heap.empty
    [.ctor_ptr 1 7, .ctor_ptr 2 8, .ctor_copy 3 2, .swap 1 2]).left 3 = 1 := by decide
  have := h.2
  rw [h2, h3] at this
  exact absurd this (by decide)

/-- C4: copy-constructing a new handle `H2` from a handle `H` of a well-formed ring
`H :: t` (of any size) gives `get(H2) == get(H)` with `get(H)` unchanged, links `H2`
immediately to the right of `H`, leaves a well-formed ring whose members are the old
members plus `H2` (one more member), makes `unique()` false for both `H` and `H2`, and
frees nothing. -/
theorem C4_copy_construct_joins_ring (s : Heap) (H H2 : Nat) (t : List Nat)
    (hr : IsRing s (H :: t)) (hfresh : H2 ∉ H :: t) :
    linked_ptr.get (linked_ptr.ctor_copy s H2 H) H2
      = linked_ptr.get (linked_ptr.ctor_copy s H2 H) H ∧
    linked_ptr.get (linked_ptr.ctor_copy s H2 H) H = linked_ptr.get s H ∧
    (linked_ptr.ctor_copy s H2 H).right H = H2 ∧
    (linked_ptr.ctor_copy s H2 H).left H2 = H ∧
    IsRing (linked_ptr.ctor_copy s H2 H) (H :: H2 :: t) ∧
    (H :: H2 :: t).length = (H :: t).length + 1 ∧
    linked_ptr.unique (linked_ptr.ctor_copy s H2 H) H = false ∧
    linked_ptr.unique (linked_ptr.ctor_copy s H2 H) H2 = false ∧
    (linked_ptr.ctor_copy s H2 H).freed = s.freed := by
  have hnh : H2 ≠ H := fun e => hfresh (e ▸ List.mem_cons_self _ _)
  have hr' := isRing_ctor_copy hr hfresh
  obtain ⟨hu1, hu2⟩ := ctor_copy_not_unique hr hfresh
  refine ⟨?_, ?_, hr'.2.1.1, hr'.2.1.2, hr', rfl, hu1, hu2, rfl⟩
  · simp only [linked_ptr.get]
    rw [ctor_copy_ptr _ _ _ _ hnh, ctor_copy_ptr _ _ _ _ hnh, if_pos rfl,
      if_neg (fun e => hnh e.symm)]
  · simp only [linked_ptr.get]
    rw [ctor_copy_ptr _ _ _ _ hnh, if_neg (fun e => hnh e.symm)]

theorem C4_witness :
    IsRing (run Heap.empty [.ctor_ptr 1 7, .ctor_copy 2 1]) [1, 2] ∧
    IsRing (linked_ptr.ctor_copy (run Heap.empty [.ctor_ptr 1 7, .ctor_copy 2 1]) 3 1)
      [1, 3, 2] :=
  ⟨by decide,
    (C4_copy_construct_joins_ring (run Heap.empty [.ctor_ptr 1 7, .ctor_copy 2 1]) 1 3 [2]
      (by decide) (by decide)).2.2.2.2.1⟩

/-- C5: copy-constructing `H2` from a handle `H` of a well-formed ring and then
destroying `H2` frees nothing, leaves `get(H)` unchanged, and restores the left and right
links (and the pointer) of `H` and of every other node to their values before the copy;
the ring of `H` is the same well-formed ring, and if `H` was unique before the copy it is
unique again. -/
theorem C5_copy_then_destroy_restores (s : Heap) (H H2 : Nat) (t : List Nat)
    (hr : IsRing s (H :: t)) (hfresh : H2 ∉ H :: t) :
    (linked_ptr.dtor (linked_ptr.ctor_copy s H2 H) H2).freed = s.freed ∧
    linked_ptr.get (linked_ptr.dtor (linked_ptr.ctor_copy s H2 H) H2) H
      = linked_ptr.get s H ∧
    (∀ x, x ≠ H2 →
      (linked_ptr.dtor (linked_ptr.ctor_copy s H2 H) H2).left x = s.left x ∧
      (linked_ptr.dtor (linked_ptr.ctor_copy s H2 H) H2).right x = s.right x ∧
      (linked_ptr.dtor (linked_ptr.ctor_copy s H2 H) H2).ptr x = s.ptr x) ∧
    IsRing (linked_ptr.dtor (linked_ptr.ctor_copy s H2 H) H2) (H :: t) ∧
    (linked_ptr.unique s H = true →
      linked_ptr.unique (linked_ptr.dtor (linked_ptr.ctor_copy s H2 H) H2) H = true) := by
  have hnh : H2 ≠ H := fun e => hfresh (e ▸ List.mem_cons_self _ _)
  have hall := copy_dtor_restores hr hfresh
  have hHn : H ≠ H2 := fun e => hnh e.symm
  refine ⟨?_, (hall H hHn).2.2, hall, ?_, ?_⟩
  · have hu := (ctor_copy_not_unique hr hfresh).2
    show (linked_ptr.reset_ptr (linked_ptr.ctor_copy s H2 H) H2 0).freed = s.freed
    unfold linked_ptr.reset_ptr
    rw [release_shared hu]
    rfl
  · refine isRing_congr ?_ ?_ hr
    · intro x hx
      exact (hall x (fun e => hfresh (e ▸ hx))).1
    · intro x hx
      exact (hall x (fun e => hfresh (e ▸ hx))).2.1
  · intro hu
    rw [unique_iff] at hu ⊢
    rw [(hall H hHn).1, (hall H hHn).2.1]
    exact hu

theorem C5_witness :
    IsRing (run Heap.empty [.ctor_ptr 1 7]) [1] ∧
    linked_ptr.unique
      (linked_ptr.dtor (linked_ptr.ctor_copy (run Heap.empty [.ctor_ptr 1 7]) 2 1) 2) 1
      = true :=
  ⟨by decide,
    (C5_copy_then_destroy_restores (run Heap.empty [.ctor_ptr 1 7]) 1 2 []
      (by decide) (by decide)).2.2.2.2 (by decide)⟩

/-- C6: `reset()` on a handle `h` of a well-formed ring `h :: t` sets `h.ptr` to null
and leaves `h` a singleton without changing the pointer of any other handle.  If `h` was
unique its object is deleted (an empty handle has no object: `delete nullptr` frees
nothing).  If `h` was shared nothing is freed, the other members `t` form a well-formed
ring with one member less, the former left and right neighbours of `h` are linked to each
other, and each of them still holds its pointer. -/
theorem C6_reset_unique_or_shared (s : Heap) (h : Nat) (t : List Nat)
    (hr : IsRing s (h :: t)) :
    (linked_ptr.reset s h).ptr h = 0 ∧
    linked_ptr.unique (linked_ptr.reset s h) h = true ∧
    (∀ x, x ≠ h → (linked_ptr.reset s h).ptr x = s.ptr x) ∧
    (linked_ptr.unique s h = true →
      (linked_ptr.reset s h).freed = s.freed ++ (if s.ptr h = 0 then [] else [s.ptr h])) ∧
    (linked_ptr.unique s h = false →
      (linked_ptr.reset s h).freed = s.freed ∧
      IsRing (linked_ptr.reset s h) t ∧
      t.length + 1 = (h :: t).length ∧
      Link (linked_ptr.reset s h) (s.left h) (s.right h) ∧
      ∀ x ∈ t, (linked_ptr.reset s h).ptr x = s.ptr x) := by
  have hxt : h ∉ t := (List.nodup_cons.mp hr.1).1
  have hptr : ∀ x, (linked_ptr.reset s h).ptr x = if x = h then 0 else s.ptr x :=
    fun x => reset_ptr_ptr s h 0 x
  refine ⟨by rw [hptr, if_pos rfl], ?_, fun x hx => by rw [hptr, if_neg hx], ?_, ?_⟩
  · cases t with
    | nil =>
      have hu := (isRing_singleton_iff s h).mp hr
      have := reset_ptr_unique 0 hu
      rw [unique_iff] at hu ⊢
      show (linked_ptr.reset_ptr s h 0).left h = h ∧ (linked_ptr.reset_ptr s h 0).right h = h
      rw [this.2.1, this.2.2]
      exact hu
    | cons b t => exact (reset_ptr_shared 0 hr).2.2.1
  · intro hu
    exact (reset_ptr_unique 0 hu).1
  · intro hu
    cases t with
    | nil =>
      have := (isRing_singleton_iff s h).mp hr
      rw [hu] at this
      exact absurd this (by decide)
    | cons b t =>
      obtain ⟨h1, h2, -, h4⟩ := reset_ptr_shared 0 hr
      refine ⟨h1, h2, rfl, h4, ?_⟩
      intro x hx
      have hxh : x ≠ h := fun e => hxt (e ▸ hx)
      rw [hptr, if_neg hxh]

theorem C6_witness :
    IsRing (run Heap.empty [.ctor_ptr 1 7, .ctor_copy 2 1, .ctor_copy 3 1]) [1, 3, 2] ∧
    IsRing (linked_ptr.reset
      (run Heap.empty [.ctor_ptr 1 7, .ctor_copy 2 1, .ctor_copy 3 1]) 1) [3, 2] :=
  ⟨by decide,
    ((C6_reset_unique_or_shared
      (run Heap.empty [.ctor_ptr 1 7, .ctor_copy 2 1, .ctor_copy 3 1]) 1 [3, 2]
      (by decide)).2.2.2.2 (by decide)).2.1⟩

/-- C7: `reset(newPtr)` on a handle `h` of a well-formed ring `h :: t` leaves `h` a
singleton with `get() == newPtr` and changes the pointer of no other handle.  If `h` was
unique its old object is deleted (an empty handle has no object).  If `h` was shared
nothing is freed and only `h` leaves the old ring: the other members `t` form a
well-formed ring with one member less and each still holds its pointer. -/
theorem C7_reset_ptr_unique_or_shared (s : Heap) (h newPtr : Nat) (t : List Nat)
    (hr : IsRing s (h :: t)) :
    linked_ptr.get (linked_ptr.reset_ptr s h newPtr) h = newPtr ∧
    linked_ptr.unique (linked_ptr.reset_ptr s h newPtr) h = true ∧
    (∀ x, x ≠ h → (linked_ptr.reset_ptr s h newPtr).ptr x = s.ptr x) ∧
    (linked_ptr.unique s h = true →
      (linked_ptr.reset_ptr s h newPtr).freed
        = s.freed ++ (if s.ptr h = 0 then [] else [s.ptr h])) ∧
    (linked_ptr.unique s h = false →
      (linked_ptr.reset_ptr s h newPtr).freed = s.freed ∧
      IsRing (linked_ptr.reset_ptr s h newPtr) t ∧
      t.length + 1 = (h :: t).length ∧
      ∀ x ∈ t, (linked_ptr.reset_ptr s h newPtr).ptr x = s.ptr x) := by
  have hxt : h ∉ t := (List.nodup_cons.mp hr.1).1
  have hptr := reset_ptr_ptr s h newPtr
  refine ⟨by rw [linked_ptr.get, hptr, if_pos rfl], ?_,
    fun x hx => by rw [hptr, if_neg hx], ?_, ?_⟩
  · cases t with
    | nil =>
      have hu := (isRing_singleton_iff s h).mp hr
      have := reset_ptr_unique newPtr hu
      rw [unique_iff] at hu ⊢
      rw [this.2.1, this.2.2]
      exact hu
    | cons b t => exact (reset_ptr_shared newPtr hr).2.2.1
  · intro hu
    exact (reset_ptr_unique newPtr hu).1
  · intro hu
    cases t with
    | nil =>
      have := (isRing_singleton_iff s h).mp hr
      rw [hu] at this
      exact absurd this (by decide)
    | cons b t =>
      obtain ⟨h1, h2, -, -⟩ := reset_ptr_shared newPtr hr
      refine ⟨h1, h2, rfl, ?_⟩
      intro x hx
      have hxh : x ≠ h := fun e => hxt (e ▸ hx)
      rw [hptr, if_neg hxh]

theorem C7_witness :
    IsRing (run Heap.empty [.ctor_ptr 1 7]) [1] ∧
    (linked_ptr.reset_ptr (run Heap.empty [.ctor_ptr 1 7]) 1 9).freed = [7] :=
  ⟨by decide,
    (C7_reset_ptr_unique_or_shared (run Heap.empty [.ctor_ptr 1 7]) 1 9 []
      (by decide)).2.2.2.1 (by decide)⟩

/-- C8: copy assignment `A = H` where `A` (ring `A :: ta`) and `H` (ring `H :: th`) are
in different well-formed rings.  The previous ownership of `A` is released as by
`reset()`: if `A` was unique its old object is deleted (an empty handle has no object),
otherwise nothing is freed and the other members `ta` of its old ring stay a well-formed
ring with their pointers unchanged.  Afterwards `A` is linked immediately to the right of
`H` in a well-formed ring that has one more member, `get(A) == get(H)`, the pointer of
every handle other than `A` is unchanged, and the object of the ring of `H` is not among
the objects freed by the assignment when the two rings own different objects. -/
theorem C8_assign_joins_other_ring (s : Heap) (A H : Nat) (ta th : List Nat)
    (hA : IsRing s (A :: ta)) (hH : IsRing s (H :: th))
    (hdisj : ∀ x ∈ A :: ta, x ∉ H :: th) :
    (linked_ptr.unique s A = true →
      (linked_ptr.assign s A H).freed
        = s.freed ++ (if s.ptr A = 0 then [] else [s.ptr A])) ∧
    (linked_ptr.unique s A = false →
      (linked_ptr.assign s A H).freed = s.freed ∧
      IsRing (linked_ptr.assign s A H) ta ∧
      ∀ x ∈ ta, (linked_ptr.assign s A H).ptr x = s.ptr x) ∧
    IsRing (linked_ptr.assign s A H) (H :: A :: th) ∧
    (linked_ptr.assign s A H).right H = A ∧
    (linked_ptr.assign s A H).left A = H ∧
    (H :: A :: th).length = (H :: th).length + 1 ∧
    linked_ptr.get (linked_ptr.assign s A H) A = linked_ptr.get (linked_ptr.assign s A H) H ∧
    (∀ x, x ≠ A → (linked_ptr.assign s A H).ptr x = s.ptr x) ∧
    (s.ptr A ≠ s.ptr H →
      ∃ d, (linked_ptr.assign s A H).freed = s.freed ++ d ∧ s.ptr H ∉ d) := by
  have hAth : A ∉ H :: th := hdisj A (List.mem_cons_self _ _)
  have hAH : A ≠ H := fun e => hAth (e ▸ List.mem_cons_self _ _)
  have hHA : H ≠ A := fun e => hAH e.symm
  have hAta : A ∉ ta := (List.nodup_cons.mp hA.1).1
  have hd' : ∀ x ∈ H :: th, x ∉ A :: ta := fun x hx hx' => hdisj x hx' hx
  have hptr : ∀ x, (linked_ptr.assign s A H).ptr x = if x = A then s.ptr H else s.ptr x :=
    fun x => reset_ptr_ptr s A (linked_ptr.get s H) x
  have hfr : (linked_ptr.assign s A H).freed
      = (linked_ptr.reset_ptr s A (linked_ptr.get s H)).freed := rfl
  have hH1 : IsRing (linked_ptr.reset_ptr s A (linked_ptr.get s H)) (H :: th) :=
    reset_ptr_frame _ hA hH hd'
  have hring : IsRing (linked_ptr.assign s A H) (H :: A :: th) := isRing_insert_after hH1 hAth
  have hun : linked_ptr.unique s A = true →
      (linked_ptr.assign s A H).freed
        = s.freed ++ (if s.ptr A = 0 then [] else [s.ptr A]) := by
    intro hu
    rw [hfr]
    exact (reset_ptr_unique _ hu).1
  have hsh : linked_ptr.unique s A = false → (linked_ptr.assign s A H).freed = s.freed ∧
      IsRing (linked_ptr.assign s A H) ta := by
    intro hu
    cases ta with
    | nil =>
      have := (isRing_singleton_iff s A).mp hA
      rw [hu] at this
      exact absurd this (by decide)
    | cons b ta =>
      obtain ⟨h1, h2, -, -⟩ := reset_ptr_shared (linked_ptr.get s H) hA
      refine ⟨hfr.trans h1, ?_⟩
      refine isRing_insert_after_frame hH1 hAH h2 hAta ?_
      intro x hx
      exact hdisj x (List.mem_cons_of_mem _ hx)
  refine ⟨hun, ?_, hring, hring.2.1.1, hring.2.1.2, rfl, ?_, ?_, ?_⟩
  · intro hu
    refine ⟨(hsh hu).1, (hsh hu).2, ?_⟩
    intro x hx
    have hxA : x ≠ A := fun e => hAta (e ▸ hx)
    rw [hptr, if_neg hxA]
  · simp only [linked_ptr.get]
    rw [hptr, hptr, if_pos rfl, if_neg hHA]
  · intro x hx
    rw [hptr, if_neg hx]
  · intro hne
    cases hu : linked_ptr.unique s A with
    | true =>
      refine ⟨_, hun hu, ?_⟩
      split_ifs
      · simp
      · simpa using fun e => hne e.symm
    | false => exact ⟨[], by simpa using (hsh hu).1, by simp⟩

theorem C8_witness :
    (IsRing (run Heap.empty [.ctor_ptr 1 7, .ctor_copy 2 1, .ctor_ptr 3 8, .ctor_copy 4 3])
      [1, 2] ∧
     IsRing (run Heap.empty [.ctor_ptr 1 7, .ctor_copy 2 1, .ctor_ptr 3 8, .ctor_copy 4 3])
      [3, 4]) ∧
    IsRing (linked_ptr.assign
      (run Heap.empty [.ctor_ptr 1 7, .ctor_copy 2 1, .ctor_ptr 3 8, .ctor_copy 4 3]) 1 3)
      [3, 1, 4] :=
  ⟨⟨by decide, by decide⟩,
    (C8_assign_joins_other_ring
      (run Heap.empty [.ctor_ptr 1 7, .ctor_copy 2 1, .ctor_ptr 3 8, .ctor_copy 4 3])
      1 3 [2] [4] (by decide) (by decide) (by decide)).2.2.1⟩

/-- C9: the code at self-assignment `H = H`.  For a unique handle holding object 7 the
assignment deletes the object while `get(H)` still returns 7.  For a handle that shares
object 7 with a sibling in a ring of two, the assignment takes the handle out of the
ring: afterwards both handles are singletons that hold 7. -/
theorem C9_self_assign_at_inputs :
    linked_ptr.unique (run Heap.empty [.ctor_ptr 1 7]) 1 = true ∧
    (linked_ptr.assign (run Heap.empty [.ctor_ptr 1 7]) 1 1).freed = [7] ∧
    linked_ptr.get (linked_ptr.assign (run Heap.empty [.ctor_ptr 1 7]) 1 1) 1 = 7 ∧
    IsRing (run Heap.empty [.ctor_ptr 1 7, .ctor_copy 2 1]) [1, 2] ∧
    IsRing (linked_ptr.assign (run Heap.empty [.ctor_ptr 1 7, .ctor_copy 2 1]) 1 1) [1] ∧
    IsRing (linked_ptr.assign (run Heap.empty [.ctor_ptr 1 7, .ctor_copy 2 1]) 1 1) [2] ∧
    linked_ptr.get (linked_ptr.assign
      (run Heap.empty [.ctor_ptr 1 7, .ctor_copy 2 1]) 1 1) 1 = 7 ∧
    linked_ptr.get (linked_ptr.assign
      (run Heap.empty [.ctor_ptr 1 7, .ctor_copy 2 1]) 1 1) 2 = 7 := by
  decide

/-- C10: copy assignment `A = B` between two distinct handles of the same well-formed
ring: nothing is freed, the pointer of every handle other than `A` (so `get(B)`) is
unchanged, `get(A)` becomes `get(B)` and is therefore unchanged when `A` and `B` held the
same pointer, as the handles of one ring do, and afterwards the ring is well-formed with
exactly the same members (same member count), `A` now being the right neighbour of `B`. -/
theorem C10_assign_within_ring (s : Heap) (A B : Nat) (t₁ t₂ : List Nat)
    (hr : IsRing s (A :: (t₂ ++ B :: t₁))) :
    (linked_ptr.assign s A B).freed = s.freed ∧
    (∀ x, x ≠ A → (linked_ptr.assign s A B).ptr x = s.ptr x) ∧
    linked_ptr.get (linked_ptr.assign s A B) B = linked_ptr.get s B ∧
    linked_ptr.get (linked_ptr.assign s A B) A = linked_ptr.get s B ∧
    (s.ptr A = s.ptr B →
      linked_ptr.get (linked_ptr.assign s A B) A = linked_ptr.get s A) ∧
    IsRing (linked_ptr.assign s A B) (B :: A :: (t₁ ++ t₂)) ∧
    (B :: A :: (t₁ ++ t₂)).Perm (A :: (t₂ ++ B :: t₁)) ∧
    (B :: A :: (t₁ ++ t₂)).length = (A :: (t₂ ++ B :: t₁)).length := by
  have hperm : (B :: A :: (t₁ ++ t₂)).Perm (A :: (t₂ ++ B :: t₁)) := by
    refine (List.Perm.swap _ _ _).trans (List.Perm.cons _ ?_)
    exact (List.Perm.cons _ List.perm_append_comm).trans List.perm_middle.symm
  have hAt : A ∉ t₂ ++ B :: t₁ := (List.nodup_cons.mp hr.1).1
  have hBA : B ≠ A := fun e => hAt (e ▸ (by simp))
  have hptr : ∀ x, (linked_ptr.assign s A B).ptr x = if x = A then s.ptr B else s.ptr x :=
    fun x => reset_ptr_ptr s A (linked_ptr.get s B) x
  have hfr : (linked_ptr.assign s A B).freed
      = (linked_ptr.reset_ptr s A (linked_ptr.get s B)).freed := rfl
  obtain ⟨b, t', hbt⟩ : ∃ b t', t₂ ++ B :: t₁ = b :: t' := by
    cases t₂ with
    | nil => exact ⟨B, t₁, rfl⟩
    | cons c t₂ => exact ⟨c, t₂ ++ B :: t₁, rfl⟩
  have hr' : IsRing s (A :: b :: t') := hbt ▸ hr
  obtain ⟨h1, h2, -, -⟩ := reset_ptr_shared (linked_ptr.get s B) hr'
  rw [← hbt] at h2
  have h3 : IsRing (linked_ptr.reset_ptr s A (linked_ptr.get s B)) (B :: (t₁ ++ t₂)) := by
    cases t₂ with
    | nil => simpa using h2
    | cons c t₂ =>
      have := isRing_rotate h2
      simpa using this
  have hA' : A ∉ B :: (t₁ ++ t₂) := by
    intro hm
    apply hAt
    simp only [List.mem_cons, List.mem_append] at hm ⊢
    tauto
  have hgA : linked_ptr.get (linked_ptr.assign s A B) A = linked_ptr.get s B := by
    simp only [linked_ptr.get]
    rw [hptr, if_pos rfl]
  refine ⟨hfr.trans h1, fun x hx => by rw [hptr, if_neg hx], ?_, hgA, ?_,
    isRing_insert_after h3 hA', hperm, hperm.length_eq⟩
  · simp only [linked_ptr.get]
    rw [hptr, if_neg hBA]
  · intro he
    rw [hgA]
    exact he.symm

theorem C10_witness :
    IsRing (run Heap.empty [.ctor_ptr 1 7, .ctor_copy 2 1, .ctor_copy 3 1]) [3, 2, 1] ∧
    IsRing (linked_ptr.assign
      (run Heap.empty [.ctor_ptr 1 7, .ctor_copy 2 1, .ctor_copy 3 1]) 3 1) [1, 3, 2] :=
  ⟨by decide,
    (C10_assign_within_ring
      (run Heap.empty [.ctor_ptr 1 7, .ctor_copy 2 1, .ctor_copy 3 1]) 3 1 [] [2]
      (by decide)).2.2.2.2.2.1⟩

/-! ## Swapping two handles -/

theorem heap_ext {s t : Heap} (hl : ∀ x, s.left x = t.left x) (hr : ∀ x, s.right x = t.right x)
    (hp : ∀ x, s.ptr x = t.ptr x) (hf : s.freed = t.freed) : s = t := by
  cases s
  cases t
  simp only [Heap.mk.injEq]
  exact ⟨funext hl, funext hr, funext hp, hf⟩

/-- In a ring with at least two nodes both neighbours of the head are other nodes of
the ring. -/
theorem isRing_shared_neighbours {s : Heap} {h b : Nat} {t : List Nat}
    (hr : IsRing s (h :: b :: t)) :
    s.left h ∈ b :: t ∧ s.right h ∈ b :: t := by
  have hb : s.right h = b := hr.2.1.1
  have hhb : h ∉ b :: t := (List.nodup_cons.mp hr.1).1
  obtain ⟨hll, hlm⟩ := isRing_link_left hr
  have hlh : s.left h ≠ h := by
    intro e
    rw [e] at hll
    exact hhb (by rw [← hb, hll.1]; exact List.mem_cons_self _ _)
  refine ⟨?_, by rw [hb]; exact List.mem_cons_self _ _⟩
  rcases List.mem_cons.mp hlm with h1 | h1
  · exact absurd h1 hlh
  · exact h1

/-- The right neighbour of a node of a ring is a node of the ring. -/
theorem isRing_right_mem {s : Heap} {l : List Nat} {x : Nat} (hr : IsRing s l) (hx : x ∈ l) :
    s.right x ∈ l := by
  obtain ⟨t, hrt, hpt⟩ := isRing_rotate_to hr hx
  exact hpt.mem_iff.mp (isRing_link_right hrt).2

theorem linked_closed {s : Heap} {S : Nat → Prop} (hS : ∀ y, S y → S (s.right y)) :
    ∀ (l : List Nat) (a : Nat), Linked s a l → S a → ∀ y ∈ l, S y
  | [], _, _, _, y, hy => absurd hy (List.not_mem_nil y)
  | b :: l, a, h, ha, y, hy => by
    have hb : S b := by
      have := hS a ha
      rwa [h.1.1] at this
    rcases List.mem_cons.mp hy with e | hm
    · exact e ▸ hb
    · exact linked_closed hS l b h.2 hb y hm

/-- Two rings that have a node in common have the same nodes. -/
theorem isRing_share {s : Heap} {l₁ l₂ : List Nat} {x : Nat} (h₁ : IsRing s l₁)
    (h₂ : IsRing s l₂) (hx₁ : x ∈ l₁) (hx₂ : x ∈ l₂) : ∀ y ∈ l₁, y ∈ l₂ := by
  obtain ⟨t, hrt, hpt⟩ := isRing_rotate_to h₁ hx₁
  intro y hy
  have hy' : y ∈ x :: t := hpt.mem_iff.mpr hy
  rcases List.mem_cons.mp hy' with e | hm
  · exact e ▸ hx₂
  · have hcl := @linked_closed s (fun z => z ∈ l₂) (fun z hz => isRing_right_mem h₂ hz)
      (t ++ [x]) x hrt.2 hx₂
    exact hcl y (List.mem_append_left _ hm)

/-- A node `a` that takes over the links of the head `b` of a ring with at least two
nodes becomes the head of the ring of the other nodes. -/
theorem isRing_replace_head {s s' : Heap} {a b c : Nat} {t : List Nat}
    (hr : IsRing s (b :: c :: t)) (ha : a ∉ b :: c :: t)
    (hRA : s'.right a = s.right b) (hLA : s'.left a = s.left b)
    (hRL : s'.right (s.left b) = a) (hLR : s'.left (s.right b) = a)
    (hrt : ∀ x ∈ c :: t, x ≠ s.left b → s'.right x = s.right x)
    (hlt : ∀ x ∈ c :: t, x ≠ s.right b → s'.left x = s.left x) :
    IsRing s' (a :: c :: t) := by
  have hnd := hr.1
  have hc : s.right b = c := hr.2.1.1
  have hbt : b ∉ c :: t := (List.nodup_cons.mp hnd).1
  have hct : c ∉ t := (List.nodup_cons.mp (List.nodup_cons.mp hnd).2).1
  obtain ⟨hll, -⟩ := isRing_link_left hr
  refine ⟨?_, ⟨?_, ?_⟩, ?_⟩
  · refine List.nodup_cons.mpr ⟨fun hm => ha (List.mem_cons_of_mem _ hm), ?_⟩
    exact (List.nodup_cons.mp hnd).2
  · rw [hRA, hc]
  · rw [← hc, hLR]
  · refine linked_retarget t c hr.2.2 ?_ ?_
    · intro x hx y hy hxy
      have hxl : x ≠ s.left b := by
        rintro rfl
        apply hbt
        rw [← hll.1, hxy.1]
        exact List.mem_cons_of_mem _ hy
      have hyc : y ≠ s.right b := by
        rw [hc]
        exact fun e => hct (e ▸ hy)
      exact ⟨(hrt x hx hxl).trans hxy.1,
        (hlt y (List.mem_cons_of_mem _ hy) hyc).trans hxy.2⟩
    · intro x _ hxb
      have hxl : x = s.left b := hxb.2.symm
      refine ⟨?_, ?_⟩
      · rw [hxl, hRL]
      · rw [hLA, hxl]

/-- The last branch of `linked_ptr_base::swap`, field by field: the right links. -/
theorem base_swap_shared_right {s : Heap} {a b : Nat}
    (hua : linked_ptr_base.unique s a = false) (hub : linked_ptr_base.unique s b = false)
    (hab : a ≠ b) (h1 : a ≠ s.left b) (h2 : b ≠ s.left a) (h3 : b ≠ s.left b)
    (h4 : b ≠ s.right b) (x : Nat) :
    (linked_ptr_base.swap s a b).right x =
      if x = s.left a then b else if x = s.left b then a
      else if x = b then s.right a else if x = a then s.right b else s.right x := by
  have hba : b ≠ a := fun e => hab e.symm
  simp only [linked_ptr_base.swap, linked_ptr_base.relink, hua, hub, Bool.and_self,
    Bool.not_false, Bool.and_true, Bool.and_false, Bool.false_and, Bool.false_eq_true,
    if_false, setRight_right, setLeft_right, setLeft_left, setRight_left, if_neg hab,
    if_neg hba, if_true, if_neg h1, if_neg h2, if_neg h3, if_neg h4]

/-- The last branch of `linked_ptr_base::swap`, field by field: the left links. -/
theorem base_swap_shared_left {s : Heap} {a b : Nat}
    (hua : linked_ptr_base.unique s a = false) (hub : linked_ptr_base.unique s b = false)
    (hab : a ≠ b) (h1 : a ≠ s.left b) (h2 : b ≠ s.left a) (h3 : b ≠ s.left b)
    (h4 : b ≠ s.right b) (y : Nat) :
    (linked_ptr_base.swap s a b).left y =
      if y = s.right a then b else if y = s.right b then a
      else if y = b then s.left a else if y = a then s.left b else s.left y := by
  have hba : b ≠ a := fun e => hab e.symm
  simp only [linked_ptr_base.swap, linked_ptr_base.relink, hua, hub, Bool.and_self,
    Bool.not_false, Bool.and_true, Bool.and_false, Bool.false_and, Bool.false_eq_true,
    if_false, setRight_right, setLeft_right, setLeft_left, setRight_left, if_neg hab,
    if_neg hba, if_true, if_neg h1, if_neg h2, if_neg h3, if_neg h4]

theorem base_swap_ptr (s : Heap) (a b : Nat) : (linked_ptr_base.swap s a b).ptr = s.ptr := by
  unfold linked_ptr_base.swap linked_ptr_base.relink
  split_ifs <;> rfl

theorem base_swap_freed (s : Heap) (a b : Nat) :
    (linked_ptr_base.swap s a b).freed = s.freed := by
  unfold linked_ptr_base.swap linked_ptr_base.relink
  split_ifs <;> rfl

/-- The last branch of `linked_ptr_base::swap` on the heads of two disjoint rings with
at least two nodes each: the two heads exchange their ring positions. -/
theorem isRing_base_swap_shared {s : Heap} {a b a₁ b₁ : Nat} {ta tb : List Nat}
    (ha : IsRing s (a :: a₁ :: ta)) (hb : IsRing s (b :: b₁ :: tb))
    (hdisj : ∀ x ∈ a :: a₁ :: ta, x ∉ b :: b₁ :: tb) :
    IsRing (linked_ptr_base.swap s a b) (a :: b₁ :: tb) ∧
    IsRing (linked_ptr_base.swap s a b) (b :: a₁ :: ta) ∧
    (linked_ptr_base.swap s a b).left a = s.left b ∧
    (linked_ptr_base.swap s a b).right a = s.right b ∧
    (linked_ptr_base.swap s a b).left b = s.left a ∧
    (linked_ptr_base.swap s a b).right b = s.right a := by
  have hne : ∀ x ∈ a :: a₁ :: ta, ∀ y ∈ b :: b₁ :: tb, x ≠ y :=
    fun x hx y hy e => hdisj x hx (e ▸ hy)
  have hua : linked_ptr_base.unique s a = false := isRing_not_unique ha
  have hub : linked_ptr_base.unique s b = false := isRing_not_unique hb
  obtain ⟨hLA, hRA⟩ := isRing_shared_neighbours ha
  obtain ⟨hLB, hRB⟩ := isRing_shared_neighbours hb
  have hat : a ∉ a₁ :: ta := (List.nodup_cons.mp ha.1).1
  have hbt : b ∉ b₁ :: tb := (List.nodup_cons.mp hb.1).1
  have ham : a ∈ a :: a₁ :: ta := List.mem_cons_self _ _
  have hbm : b ∈ b :: b₁ :: tb := List.mem_cons_self _ _
  have hLA' : s.left a ∈ a :: a₁ :: ta := List.mem_cons_of_mem _ hLA
  have hRA' : s.right a ∈ a :: a₁ :: ta := List.mem_cons_of_mem _ hRA
  have hLB' : s.left b ∈ b :: b₁ :: tb := List.mem_cons_of_mem _ hLB
  have hRB' : s.right b ∈ b :: b₁ :: tb := List.mem_cons_of_mem _ hRB
  have hab : a ≠ b := hne a ham b hbm
  have e1 : a ≠ s.left b := hne a ham _ hLB'
  have e2 : b ≠ s.left a := fun e => hne _ hLA' b hbm e.symm
  have e3 : b ≠ s.left b := fun e => hbt (e ▸ hLB)
  have e4 : b ≠ s.right b := fun e => hbt (e ▸ hRB)
  have e5 : a ≠ s.left a := fun e => hat (e ▸ hLA)
  have e6 : a ≠ s.right a := fun e => hat (e ▸ hRA)
  have e7 : a ≠ s.right b := hne a ham _ hRB'
  have e8 : b ≠ s.right a := fun e => hne _ hRA' b hbm e.symm
  have e9 : s.left a ≠ s.left b := hne _ hLA' _ hLB'
  have e10 : s.right a ≠ s.right b := hne _ hRA' _ hRB'
  have hR := base_swap_shared_right hua hub hab e1 e2 e3 e4
  have hL := base_swap_shared_left hua hub hab e1 e2 e3 e4
  have hla : (linked_ptr_base.swap s a b).left a = s.left b := by
    rw [hL, if_neg e6, if_neg e7, if_neg hab, if_pos rfl]
  have hra : (linked_ptr_base.swap s a b).right a = s.right b := by
    rw [hR, if_neg e5, if_neg e1, if_neg hab, if_pos rfl]
  have hlb : (linked_ptr_base.swap s a b).left b = s.left a := by
    rw [hL, if_neg e8, if_neg e4, if_pos rfl]
  have hrb : (linked_ptr_base.swap s a b).right b = s.right a := by
    rw [hR, if_neg e2, if_neg e3, if_pos rfl]
  refine ⟨?_, ?_, hla, hra, hlb, hrb⟩
  · refine isRing_replace_head hb (fun hm => hdisj a ham hm) hra hla ?_ ?_ ?_ ?_
    · rw [hR, if_neg (fun e => e9 e.symm), if_pos rfl]
    · rw [hL, if_neg (fun e => e10 e.symm), if_pos rfl]
    · intro x hx hxl
      have hx' : x ∈ b :: b₁ :: tb := List.mem_cons_of_mem _ hx
      have f1 : x ≠ s.left a := fun e => hne _ hLA' x hx' e.symm
      have f2 : x ≠ b := fun e => hbt (e ▸ hx)
      have f3 : x ≠ a := fun e => hne a ham x hx' e.symm
      rw [hR, if_neg f1, if_neg hxl, if_neg f2, if_neg f3]
    · intro x hx hxr
      have hx' : x ∈ b :: b₁ :: tb := List.mem_cons_of_mem _ hx
      have f1 : x ≠ s.right a := fun e => hne _ hRA' x hx' e.symm
      have f2 : x ≠ b := fun e => hbt (e ▸ hx)
      have f3 : x ≠ a := fun e => hne a ham x hx' e.symm
      rw [hL, if_neg f1, if_neg hxr, if_neg f2, if_neg f3]
  · refine isRing_replace_head ha (fun hm => hdisj b hm hbm) hrb hlb ?_ ?_ ?_ ?_
    · rw [hR, if_pos rfl]
    · rw [hL, if_pos rfl]
    · intro x hx hxl
      have hx' : x ∈ a :: a₁ :: ta := List.mem_cons_of_mem _ hx
      have f1 : x ≠ s.left b := hne x hx' _ hLB'
      have f2 : x ≠ b := hne x hx' b hbm
      have f3 : x ≠ a := fun e => hat (e ▸ hx)
      rw [hR, if_neg hxl, if_neg f1, if_neg f2, if_neg f3]
    · intro x hx hxr
      have hx' : x ∈ a :: a₁ :: ta := List.mem_cons_of_mem _ hx
      have f1 : x ≠ s.right b := hne x hx' _ hRB'
      have f2 : x ≠ b := hne x hx' b hbm
      have f3 : x ≠ a := fun e => hat (e ▸ hx)
      rw [hL, if_neg hxr, if_neg f1, if_neg f2, if_neg f3]

/-- The pointers after `linked_ptr::swap` of two handles that hold different pointers. -/
theorem swap_ptr {s : Heap} {a b : Nat} (hp : s.ptr a ≠ s.ptr b) (x : Nat) :
    (linked_ptr.swap s a b).ptr x =
      if x = b then s.ptr a else if x = a then s.ptr b else s.ptr x := by
  simp only [linked_ptr.swap, if_neg hp, setPtr_ptr, base_swap_ptr]

theorem swap_links {s : Heap} {a b : Nat} (hp : s.ptr a ≠ s.ptr b) :
    (linked_ptr.swap s a b).left = (linked_ptr_base.swap s a b).left ∧
    (linked_ptr.swap s a b).right = (linked_ptr_base.swap s a b).right ∧
    (linked_ptr.swap s a b).freed = s.freed := by
  simp only [linked_ptr.swap, if_neg hp, setPtr_left, setPtr_right, setPtr_freed,
    base_swap_freed, and_self]

/-- The branches of `linked_ptr_base::swap` with exactly one unique side perform the
same stores whichever of the two nodes is `this`. -/
theorem base_swap_mixed_comm {s : Heap} {a b : Nat}
    (hua : linked_ptr_base.unique s a = true) (hub : linked_ptr_base.unique s b = false) :
    linked_ptr_base.swap s a b = linked_ptr_base.swap s b a := by
  simp [linked_ptr_base.swap, hua, hub]

/-- The last branch of `linked_ptr_base::swap` on the heads of two disjoint rings with
at least two nodes each gives the same memory whichever of the two nodes is `this`. -/
theorem base_swap_shared_comm {s : Heap} {a b a₁ b₁ : Nat} {ta tb : List Nat}
    (ha : IsRing s (a :: a₁ :: ta)) (hb : IsRing s (b :: b₁ :: tb))
    (hdisj : ∀ x ∈ a :: a₁ :: ta, x ∉ b :: b₁ :: tb) :
    linked_ptr_base.swap s a b = linked_ptr_base.swap s b a := by
  have hne : ∀ x ∈ a :: a₁ :: ta, ∀ y ∈ b :: b₁ :: tb, x ≠ y :=
    fun x hx y hy e => hdisj x hx (e ▸ hy)
  have hua : linked_ptr_base.unique s a = false := isRing_not_unique ha
  have hub : linked_ptr_base.unique s b = false := isRing_not_unique hb
  obtain ⟨hLA, hRA⟩ := isRing_shared_neighbours ha
  obtain ⟨hLB, hRB⟩ := isRing_shared_neighbours hb
  have hat : a ∉ a₁ :: ta := (List.nodup_cons.mp ha.1).1
  have hbt : b ∉ b₁ :: tb := (List.nodup_cons.mp hb.1).1
  have ham : a ∈ a :: a₁ :: ta := List.mem_cons_self _ _
  have hbm : b ∈ b :: b₁ :: tb := List.mem_cons_self _ _
  have hLA' : s.left a ∈ a :: a₁ :: ta := List.mem_cons_of_mem _ hLA
  have hRA' : s.right a ∈ a :: a₁ :: ta := List.mem_cons_of_mem _ hRA
  have hLB' : s.left b ∈ b :: b₁ :: tb := List.mem_cons_of_mem _ hLB
  have hRB' : s.right b ∈ b :: b₁ :: tb := List.mem_cons_of_mem _ hRB
  have hab : a ≠ b := hne a ham b hbm
  have hba : b ≠ a := fun e => hab e.symm
  have e1 : a ≠ s.left b := hne a ham _ hLB'
  have e2 : b ≠ s.left a := fun e => hne _ hLA' b hbm e.symm
  have e3 : b ≠ s.left b := fun e => hbt (e ▸ hLB)
  have e4 : b ≠ s.right b := fun e => hbt (e ▸ hRB)
  have e5 : a ≠ s.left a := fun e => hat (e ▸ hLA)
  have e6 : a ≠ s.right a := fun e => hat (e ▸ hRA)
  have e9 : s.left a ≠ s.left b := hne _ hLA' _ hLB'
  have e10 : s.right a ≠ s.right b := hne _ hRA' _ hRB'
  refine heap_ext ?_ ?_ ?_ ?_
  · intro x
    rw [base_swap_shared_left hua hub hab e1 e2 e3 e4,
      base_swap_shared_left hub hua hba e2 e1 e5 e6]
    split_ifs <;> first | rfl | omega
  · intro x
    rw [base_swap_shared_right hua hub hab e1 e2 e3 e4,
      base_swap_shared_right hub hua hba e2 e1 e5 e6]
    split_ifs <;> first | rfl | omega
  · intro x
    rw [base_swap_ptr, base_swap_ptr]
  · rw [base_swap_freed, base_swap_freed]

/-- C11: `swap` between two unique handles `A` and `B` that hold different pointers:
afterwards `get(A)` is the old `get(B)`, `get(B)` is the old `get(A)`, both handles are
still singletons, no link and no other pointer has changed, and nothing is freed. -/
theorem C11_swap_unique_unique (s : Heap) (A B : Nat)
    (hA : linked_ptr.unique s A = true) (hB : linked_ptr.unique s B = true)
    (hXY : s.ptr A ≠ s.ptr B) :
    linked_ptr.get (linked_ptr.swap s A B) A = linked_ptr.get s B ∧
    linked_ptr.get (linked_ptr.swap s A B) B = linked_ptr.get s A ∧
    linked_ptr.unique (linked_ptr.swap s A B) A = true ∧
    linked_ptr.unique (linked_ptr.swap s A B) B = true ∧
    (linked_ptr.swap s A B).left = s.left ∧
    (linked_ptr.swap s A B).right = s.right ∧
    (∀ x, x ≠ A → x ≠ B → (linked_ptr.swap s A B).ptr x = s.ptr x) ∧
    (linked_ptr.swap s A B).freed = s.freed := by
  have hAB : A ≠ B := fun e => hXY (e ▸ rfl)
  have hbase : linked_ptr_base.swap s A B = s := by
    have h1 : linked_ptr_base.unique s A = true := hA
    have h2 : linked_ptr_base.unique s B = true := hB
    simp [linked_ptr_base.swap, h1, h2]
  obtain ⟨hl, hr, hf⟩ := swap_links hXY
  rw [hbase] at hl hr
  refine ⟨?_, ?_, ?_, ?_, hl, hr, ?_, hf⟩
  · simp only [linked_ptr.get]
    rw [swap_ptr hXY, if_neg hAB, if_pos rfl]
  · simp only [linked_ptr.get]
    rw [swap_ptr hXY, if_pos rfl]
  · rw [unique_iff] at hA ⊢
    rw [hl, hr]
    exact hA
  · rw [unique_iff] at hB ⊢
    rw [hl, hr]
    exact hB
  · intro x hxA hxB
    rw [swap_ptr hXY, if_neg hxB, if_neg hxA]

theorem C11_witness :
    linked_ptr.unique (run Heap.empty [.ctor_ptr 1 7, .ctor_ptr 2 8]) 1 = true ∧
    linked_ptr.get (linked_ptr.swap (run Heap.empty [.ctor_ptr 1 7, .ctor_ptr 2 8]) 1 2) 1
      = linked_ptr.get (run Heap.empty [.ctor_ptr 1 7, .ctor_ptr 2 8]) 2 :=
  ⟨by decide,
    (C11_swap_unique_unique (run Heap.empty [.ctor_ptr 1 7, .ctor_ptr 2 8]) 1 2
      (by decide) (by decide) (by decide)).1⟩

/-- C12: the code at `swap` between a member `S` (address 2) of a ring of three that
holds object 8 and a unique handle `U` (address 1) that holds object 7, in either
direction.  `U` takes the ring position of `S` and `get(U)` is 8, `get(S)` is 7 and
nothing is freed; but `S` keeps its old links to its former neighbours 3 and 4, so `S` is
not a singleton and `unique()` is false for it.  Destroying the four handles afterwards
never deletes object 7. -/
theorem C12_swap_shared_unique_at_input :
    IsRing (run Heap.empty [.ctor_ptr 1 7, .ctor_ptr 2 8, .ctor_copy 3 2, .ctor_copy 4 2])
      [2, 4, 3] ∧
    linked_ptr.unique
      (run Heap.empty [.ctor_ptr 1 7, .ctor_ptr 2 8, .ctor_copy 3 2, .ctor_copy 4 2]) 1
      = true ∧
    IsRing (run Heap.empty
      [.ctor_ptr 1 7, .ctor_ptr 2 8, .ctor_copy 3 2, .ctor_copy 4 2, .swap 2 1]) [1, 4, 3] ∧
    linked_ptr.get (run Heap.empty
      [.ctor_ptr 1 7, .ctor_ptr 2 8, .ctor_copy 3 2, .ctor_copy 4 2, .swap 2 1]) 1 = 8 ∧
    linked_ptr.get (run Heap.empty
      [.ctor_ptr 1 7, .ctor_ptr 2 8, .ctor_copy 3 2, .ctor_copy 4 2, .swap 2 1]) 2 = 7 ∧
    (run Heap.empty
      [.ctor_ptr 1 7, .ctor_ptr 2 8, .ctor_copy 3 2, .ctor_copy 4 2, .swap 2 1]).freed = [] ∧
    (run Heap.empty
      [.ctor_ptr 1 7, .ctor_ptr 2 8, .ctor_copy 3 2, .ctor_copy 4 2, .swap 2 1]).left 2 = 3 ∧
    (run Heap.empty
      [.ctor_ptr 1 7, .ctor_ptr 2 8, .ctor_copy 3 2, .ctor_copy 4 2, .swap 2 1]).right 2 = 4 ∧
    linked_ptr.unique (run Heap.empty
      [.ctor_ptr 1 7, .ctor_ptr 2 8, .ctor_copy 3 2, .ctor_copy 4 2, .swap 2 1]) 2 = false ∧
    (run Heap.empty
      [.ctor_ptr 1 7, .ctor_ptr 2 8, .ctor_copy 3 2, .ctor_copy 4 2, .swap 1 2]).left 2 = 3 ∧
    (run Heap.empty
      [.ctor_ptr 1 7, .ctor_ptr 2 8, .ctor_copy 3 2, .ctor_copy 4 2, .swap 1 2]).right 2 = 4 ∧
    linked_ptr.unique (run Heap.empty
      [.ctor_ptr 1 7, .ctor_ptr 2 8, .ctor_copy 3 2, .ctor_copy 4 2, .swap 1 2]) 2 = false ∧
    (run Heap.empty [.ctor_ptr 1 7, .ctor_ptr 2 8, .ctor_copy 3 2, .ctor_copy 4 2, .swap 2 1,
      .dtor 2, .dtor 1, .dtor 3, .dtor 4]).freed = [8] := by
  decide

/-- C13: `swap` between two shared handles `A` and `B` that are members of two
different well-formed rings (each with at least two members) and hold different pointers:
`A` takes the former ring position of `B` and `B` that of `A`, both rings are well-formed
with their sizes unchanged, `get(A)` and `get(B)` are exchanged, every member of each
ring holds the single pointer of that ring, the pointer of no other handle changes, and
nothing is freed. -/
theorem C13_swap_shared_shared (s : Heap) (A B a₁ b₁ : Nat) (ta tb : List Nat)
    (hA : IsRing s (A :: a₁ :: ta)) (hB : IsRing s (B :: b₁ :: tb))
    (hdisj : ∀ x ∈ A :: a₁ :: ta, x ∉ B :: b₁ :: tb) (hXY : s.ptr A ≠ s.ptr B) :
    IsRing (linked_ptr.swap s A B) (A :: b₁ :: tb) ∧
    IsRing (linked_ptr.swap s A B) (B :: a₁ :: ta) ∧
    (linked_ptr.swap s A B).left A = s.left B ∧
    (linked_ptr.swap s A B).right A = s.right B ∧
    (linked_ptr.swap s A B).left B = s.left A ∧
    (linked_ptr.swap s A B).right B = s.right A ∧
    (A :: b₁ :: tb).length = (B :: b₁ :: tb).length ∧
    (B :: a₁ :: ta).length = (A :: a₁ :: ta).length ∧
    linked_ptr.get (linked_ptr.swap s A B) A = linked_ptr.get s B ∧
    linked_ptr.get (linked_ptr.swap s A B) B = linked_ptr.get s A ∧
    (∀ x, x ≠ A → x ≠ B → (linked_ptr.swap s A B).ptr x = s.ptr x) ∧
    (∀ p, Holds s (B :: b₁ :: tb) p → Holds (linked_ptr.swap s A B) (A :: b₁ :: tb) p) ∧
    (∀ p, Holds s (A :: a₁ :: ta) p → Holds (linked_ptr.swap s A B) (B :: a₁ :: ta) p) ∧
    (linked_ptr.swap s A B).freed = s.freed := by
  have hAB : A ≠ B := fun e => hXY (e ▸ rfl)
  obtain ⟨hl, hr, hf⟩ := swap_links hXY
  obtain ⟨r1, r2, e1, e2, e3, e4⟩ := isRing_base_swap_shared hA hB hdisj
  have hAm : A ∈ A :: a₁ :: ta := List.mem_cons_self _ _
  have hBm : B ∈ B :: b₁ :: tb := List.mem_cons_self _ _
  have hAt : A ∉ a₁ :: ta := (List.nodup_cons.mp hA.1).1
  have hBt : B ∉ b₁ :: tb := (List.nodup_cons.mp hB.1).1
  have hgA : (linked_ptr.swap s A B).ptr A = s.ptr B := by
    rw [swap_ptr hXY, if_neg hAB, if_pos rfl]
  have hgB : (linked_ptr.swap s A B).ptr B = s.ptr A := by
    rw [swap_ptr hXY, if_pos rfl]
  have hother : ∀ x, x ≠ A → x ≠ B → (linked_ptr.swap s A B).ptr x = s.ptr x := by
    intro x hxA hxB
    rw [swap_ptr hXY, if_neg hxB, if_neg hxA]
  refine ⟨isRing_congr (fun x _ => congrFun hl x) (fun x _ => congrFun hr x) r1,
    isRing_congr (fun x _ => congrFun hl x) (fun x _ => congrFun hr x) r2,
    by rw [hl]; exact e1, by rw [hr]; exact e2, by rw [hl]; exact e3, by rw [hr]; exact e4,
    rfl, rfl, hgA, hgB, hother, ?_, ?_, hf⟩
  · intro p hp x hx
    rcases List.mem_cons.mp hx with e | hm
    · rw [e, hgA]
      exact hp B hBm
    · have hxB : x ≠ B := fun e => hBt (e ▸ hm)
      have hxA : x ≠ A := fun e => hdisj A hAm (e ▸ List.mem_cons_of_mem _ hm)
      rw [hother x hxA hxB]
      exact hp x (List.mem_cons_of_mem _ hm)
  · intro p hp x hx
    rcases List.mem_cons.mp hx with e | hm
    · rw [e, hgB]
      exact hp A hAm
    · have hxA : x ≠ A := fun e => hAt (e ▸ hm)
      have hxB : x ≠ B := fun e => hdisj x (List.mem_cons_of_mem _ hm) (e ▸ hBm)
      rw [hother x hxA hxB]
      exact hp x (List.mem_cons_of_mem _ hm)

theorem C13_witness :
    IsRing (run Heap.empty
      [.ctor_ptr 1 7, .ctor_copy 5 1, .ctor_ptr 2 8, .ctor_copy 3 2, .ctor_copy 4 2])
      [1, 5] ∧
    IsRing (linked_ptr.swap (run Heap.empty
      [.ctor_ptr 1 7, .ctor_copy 5 1, .ctor_ptr 2 8, .ctor_copy 3 2, .ctor_copy 4 2]) 1 2)
      [1, 4, 3] :=
  ⟨by decide,
    (C13_swap_shared_shared (run Heap.empty
      [.ctor_ptr 1 7, .ctor_copy 5 1, .ctor_ptr 2 8, .ctor_copy 3 2, .ctor_copy 4 2])
      1 2 5 4 [] [3] (by decide) (by decide) (by decide) (by decide)).1⟩

/-- C14: a handle freshly constructed from a raw pointer `p` is self-linked on both
sides, so `unique()` is true, and `get()` returns `p`; a default- or `nullptr`-constructed
handle is unique, `get()` is null and its conversion to `bool` is false. -/
theorem C14_fresh_handle_is_unique (s : Heap) (h p : Nat) :
    linked_ptr.unique (linked_ptr.ctor_ptr s h p) h = true ∧
    (linked_ptr.ctor_ptr s h p).left h = h ∧
    (linked_ptr.ctor_ptr s h p).right h = h ∧
    linked_ptr.get (linked_ptr.ctor_ptr s h p) h = p ∧
    linked_ptr.unique (linked_ptr.ctor_default s h) h = true ∧
    linked_ptr.get (linked_ptr.ctor_default s h) h = 0 ∧
    operator_bool (linked_ptr.ctor_default s h) h = false := by
  simp [unique_iff, linked_ptr.ctor_ptr, linked_ptr.ctor_default, linked_ptr_base.ctor,
    linked_ptr.get, operator_bool]

/-- Without conversion the converting copy constructor is the copy constructor. -/
theorem ctor_copy_conv_id (s : Heap) (n h : Nat) :
    linked_ptr.ctor_copy_conv id s n h = linked_ptr.ctor_copy s n h := rfl

/-- Without conversion `operator==` of two managed types is `operator==` of one. -/
theorem operator_eq_conv_id (s : Heap) (a b : Nat) :
    operator_eq_conv id id s a b = operator_eq s a b := rfl

/-- C16: `operator<` on handles is a strict weak order of the addresses the
handles hold: it is irreflexive and transitive, and `a` and `b` are incomparable under `<`
exactly when they hold the same address.  It is consistent with `==` for handles of the
same managed type, and for handles of different managed types whenever the pointer
conversion that `==` applies leaves the two addresses unchanged: then exactly one of
`a < b`, `a == b`, `b < a` holds, and `a` and `b` are incomparable exactly when
`a == b`. -/
theorem C16_less_is_strict_weak_order (s : Heap) (a b c : Nat) :
    operator_lt s a a = false ∧
    (operator_lt s a b = true → operator_lt s b c = true → operator_lt s a c = true) ∧
    ((operator_lt s a b = false ∧ operator_lt s b a = false) ↔
      static_cast_void (linked_ptr.get s a) = static_cast_void (linked_ptr.get s b)) ∧
    ((operator_lt s a b = true ∧ operator_eq s a b = false ∧ operator_lt s b a = false) ∨
     (operator_lt s a b = false ∧ operator_eq s a b = true ∧ operator_lt s b a = false) ∨
     (operator_lt s a b = false ∧ operator_eq s a b = false ∧ operator_lt s b a = true)) ∧
    ((operator_lt s a b = false ∧ operator_lt s b a = false) ↔ operator_eq s a b = true) ∧
    (operator_ne s a b = true ↔ (operator_lt s a b = true ∨ operator_lt s b a = true)) ∧
    (∀ castL castR : Nat → Nat,
      castL (linked_ptr.get s a) = linked_ptr.get s a →
      castR (linked_ptr.get s b) = linked_ptr.get s b →
      ((operator_lt s a b = true ∧ operator_eq_conv castL castR s a b = false ∧
          operator_lt s b a = false) ∨
       (operator_lt s a b = false ∧ operator_eq_conv castL castR s a b = true ∧
          operator_lt s b a = false) ∨
       (operator_lt s a b = false ∧ operator_eq_conv castL castR s a b = false ∧
          operator_lt s b a = true)) ∧
      ((operator_lt s a b = false ∧ operator_lt s b a = false) ↔
        operator_eq_conv castL castR s a b = true)) := by
  refine ⟨?_, ?_, ?_, ?_, ?_, ?_, ?_⟩
  · simp [operator_lt, static_cast_void]
  · simp only [operator_lt, static_cast_void, decide_eq_true_eq]
    exact fun h1 h2 => lt_trans h1 h2
  · simp only [operator_lt, static_cast_void, decide_eq_false_iff_not]
    omega
  · simp only [operator_lt, static_cast_void, operator_eq, decide_eq_true_eq,
      decide_eq_false_iff_not]
    omega
  · simp only [operator_lt, static_cast_void, operator_eq, decide_eq_true_eq,
      decide_eq_false_iff_not]
    omega
  · simp only [operator_lt, static_cast_void, operator_eq, operator_ne, decide_eq_true_eq,
      Bool.not_eq_true', decide_eq_false_iff_not]
    omega
  · intro castL castR hL hR
    simp only [operator_lt, static_cast_void, operator_eq_conv, hL, hR, decide_eq_true_eq,
      decide_eq_false_iff_not]
    omega

theorem C16_witness :
    (to_base 0 (linked_ptr.get (run Heap.empty [.ctor_ptr 1 7, .ctor_ptr 2 8]) 1)
        = linked_ptr.get (run Heap.empty [.ctor_ptr 1 7, .ctor_ptr 2 8]) 1 ∧
     id (linked_ptr.get (run Heap.empty [.ctor_ptr 1 7, .ctor_ptr 2 8]) 2)
        = linked_ptr.get (run Heap.empty [.ctor_ptr 1 7, .ctor_ptr 2 8]) 2) ∧
    ((operator_lt (run Heap.empty [.ctor_ptr 1 7, .ctor_ptr 2 8]) 1 2 = false ∧
      operator_lt (run Heap.empty [.ctor_ptr 1 7, .ctor_ptr 2 8]) 2 1 = false) ↔
      operator_eq_conv (to_base 0) id (run Heap.empty [.ctor_ptr 1 7, .ctor_ptr 2 8]) 1 2
        = true) :=
  ⟨⟨by decide, by decide⟩,
    ((C16_less_is_strict_weak_order (run Heap.empty [.ctor_ptr 1 7, .ctor_ptr 2 8]) 1 2 2
      ).2.2.2.2.2.2 (to_base 0) id (by decide) (by decide)).2⟩

/-- C16 at two handles of different managed types.  Handle 1 manages an object of a
derived class at address 16; handle 2 is its converting copy to a base class whose
subobject lies 8 bytes after the start of the derived object, so it holds address 24.
The two handles compare equal, because `==` converts the derived pointer to the base
type, and handle 1 is also less than handle 2, because `<` compares the addresses 16 and
24: it is not the case that exactly one of `a < b`, `a == b`, `b < a` holds, and the two
handles are equal without being incomparable. -/
theorem C16_counterexample :
    linked_ptr.get
      (linked_ptr.ctor_copy_conv (to_base 8) (run Heap.empty [.ctor_ptr 1 16]) 2 1) 1 = 16 ∧
    linked_ptr.get
      (linked_ptr.ctor_copy_conv (to_base 8) (run Heap.empty [.ctor_ptr 1 16]) 2 1) 2 = 24 ∧
    operator_lt
      (linked_ptr.ctor_copy_conv (to_base 8) (run Heap.empty [.ctor_ptr 1 16]) 2 1) 1 2
      = true ∧
    operator_eq_conv (to_base 8) id
      (linked_ptr.ctor_copy_conv (to_base 8) (run Heap.empty [.ctor_ptr 1 16]) 2 1) 1 2
      = true ∧
    ¬ ((operator_lt
          (linked_ptr.ctor_copy_conv (to_base 8) (run Heap.empty [.ctor_ptr 1 16]) 2 1) 1 2
          = true ∧
        operator_eq_conv (to_base 8) id
          (linked_ptr.ctor_copy_conv (to_base 8) (run Heap.empty [.ctor_ptr 1 16]) 2 1) 1 2
          = false ∧
        operator_lt
          (linked_ptr.ctor_copy_conv (to_base 8) (run Heap.empty [.ctor_ptr 1 16]) 2 1) 2 1
          = false) ∨
       (operator_lt
          (linked_ptr.ctor_copy_conv (to_base 8) (run Heap.empty [.ctor_ptr 1 16]) 2 1) 1 2
          = false ∧
        operator_eq_conv (to_base 8) id
          (linked_ptr.ctor_copy_conv (to_base 8) (run Heap.empty [.ctor_ptr 1 16]) 2 1) 1 2
          = true ∧
        operator_lt
          (linked_ptr.ctor_copy_conv (to_base 8) (run Heap.empty [.ctor_ptr 1 16]) 2 1) 2 1
          = false) ∨
       (operator_lt
          (linked_ptr.ctor_copy_conv (to_base 8) (run Heap.empty [.ctor_ptr 1 16]) 2 1) 1 2
          = false ∧
        operator_eq_conv (to_base 8) id
          (linked_ptr.ctor_copy_conv (to_base 8) (run Heap.empty [.ctor_ptr 1 16]) 2 1) 1 2
          = false ∧
        operator_lt
          (linked_ptr.ctor_copy_conv (to_base 8) (run Heap.empty [.ctor_ptr 1 16]) 2 1) 2 1
          = true)) ∧
    ¬ ((operator_lt
          (linked_ptr.ctor_copy_conv (to_base 8) (run Heap.empty [.ctor_ptr 1 16]) 2 1) 1 2
          = false ∧
        operator_lt
          (linked_ptr.ctor_copy_conv (to_base 8) (run Heap.empty [.ctor_ptr 1 16]) 2 1) 2 1
          = false) ↔
       operator_eq_conv (to_base 8) id
          (linked_ptr.ctor_copy_conv (to_base 8) (run Heap.empty [.ctor_ptr 1 16]) 2 1) 1 2
          = true) := by
  decide

/-- C17: the code of `operator>`, which returns `!(lhs < rhs)`.  For a handle that holds
object 7, `a > a` is true although `a < a` is false; for that handle and a copy of it,
which compare equal, `a > b` is true although `b < a` is false.  On all handles
`operator>` returns what `operator>=` returns, so `a > a` is true for every handle. -/
theorem C17_operator_gt_at_inputs :
    operator_gt (run Heap.empty [.ctor_ptr 1 7]) 1 1 = true ∧
    operator_lt (run Heap.empty [.ctor_ptr 1 7]) 1 1 = false ∧
    operator_eq (run Heap.empty [.ctor_ptr 1 7, .ctor_copy 2 1]) 1 2 = true ∧
    operator_gt (run Heap.empty [.ctor_ptr 1 7, .ctor_copy 2 1]) 1 2 = true ∧
    operator_lt (run Heap.empty [.ctor_ptr 1 7, .ctor_copy 2 1]) 2 1 = false ∧
    (∀ s a b, operator_gt s a b = operator_ge s a b) ∧
    (∀ s a, operator_gt s a a = true) := by
  refine ⟨by decide, by decide, by decide, by decide, by decide, fun _ _ _ => rfl, ?_⟩
  intro s a
  simp [operator_gt, operator_lt, static_cast_void]

/-- C18: the code of `operator<=`, which returns `!(lhs > rhs)` and so, `operator>`
being `!(lhs < rhs)`, returns what `operator<` returns: for a handle that holds object 7,
`a <= a` is false although `a == a` is true, and `a <= a` is false for every handle.
The code of `operator>=` is the non-strict comparison: `a >= b` holds exactly when
`b < a` or `a == b` (the `==` of handles of the same managed type), and `a >= a` is
true. -/
theorem C18_operator_le_at_inputs :
    operator_le (run Heap.empty [.ctor_ptr 1 7]) 1 1 = false ∧
    operator_eq (run Heap.empty [.ctor_ptr 1 7]) 1 1 = true ∧
    operator_eq (run Heap.empty [.ctor_ptr 1 7, .ctor_copy 2 1]) 1 2 = true ∧
    operator_le (run Heap.empty [.ctor_ptr 1 7, .ctor_copy 2 1]) 1 2 = false ∧
    (∀ s a b, operator_le s a b = operator_lt s a b) ∧
    (∀ s a, operator_le s a a = false) ∧
    (∀ s a b, operator_ge s a b = true ↔
      (operator_lt s b a = true ∨ operator_eq s a b = true)) ∧
    (∀ s a, operator_ge s a a = true) := by
  refine ⟨by decide, by decide, by decide, by decide, ?_, ?_, ?_, ?_⟩
  · intro s a b
    simp [operator_le, operator_gt]
  · intro s a
    simp [operator_le, operator_gt, operator_lt, static_cast_void]
  · intro s a b
    simp only [operator_ge, operator_lt, static_cast_void, operator_eq, Bool.not_eq_true',
      decide_eq_false_iff_not, decide_eq_true_eq]
    omega
  · intro s a
    simp [operator_ge, operator_lt, static_cast_void]

/-- C19: handle swap is symmetric.  For two distinct handles `a` and `b`, each a member
of a well-formed ring (of any size, so each unique or shared), that hold the same pointer
if they are members of the same ring, `a.swap(b)` and `b.swap(a)` produce exactly the same
memory: the same left and right links of every node, the same pointer of every handle and
the same freed objects. -/
theorem C19_swap_symmetric (s : Heap) (a b : Nat) (ta tb : List Nat) (hab : a ≠ b)
    (ha : IsRing s (a :: ta)) (hb : IsRing s (b :: tb))
    (hsame : b ∈ ta → s.ptr a = s.ptr b) :
    linked_ptr.swap s a b = linked_ptr.swap s b a := by
  by_cases hp : s.ptr a = s.ptr b
  · simp [linked_ptr.swap, hp]
  · have hp' : s.ptr b ≠ s.ptr a := fun e => hp e.symm
    have hbta : b ∉ ta := fun hm => hp (hsame hm)
    have hdisj : ∀ x ∈ a :: ta, x ∉ b :: tb := by
      intro x hx hx'
      have := isRing_share hb ha hx' hx b (List.mem_cons_self _ _)
      rcases List.mem_cons.mp this with e | hm
      · exact hab e.symm
      · exact hbta hm
    have hbase : linked_ptr_base.swap s a b = linked_ptr_base.swap s b a := by
      cases ta with
      | nil =>
        have hua : linked_ptr_base.unique s a = true := (isRing_singleton_iff s a).mp ha
        cases tb with
        | nil =>
          have hub : linked_ptr_base.unique s b = true := (isRing_singleton_iff s b).mp hb
          simp [linked_ptr_base.swap, hua, hub]
        | cons b₁ tb => exact base_swap_mixed_comm hua (isRing_not_unique hb)
      | cons a₁ ta =>
        cases tb with
        | nil =>
          have hub : linked_ptr_base.unique s b = true := (isRing_singleton_iff s b).mp hb
          exact (base_swap_mixed_comm hub (isRing_not_unique ha)).symm
        | cons b₁ tb => exact base_swap_shared_comm ha hb hdisj
    simp only [linked_ptr.swap, if_neg hp, if_neg hp', ← hbase]
    refine heap_ext (fun _ => rfl) (fun _ => rfl) ?_ rfl
    intro x
    simp only [setPtr_ptr]
    split_ifs <;> first | rfl | omega

theorem C19_witness :
    (IsRing (run Heap.empty [.ctor_ptr 1 7, .ctor_ptr 2 8, .ctor_copy 3 2]) [1] ∧
     IsRing (run Heap.empty [.ctor_ptr 1 7, .ctor_ptr 2 8, .ctor_copy 3 2]) [2, 3]) ∧
    linked_ptr.swap (run Heap.empty [.ctor_ptr 1 7, .ctor_ptr 2 8, .ctor_copy 3 2]) 1 2
      = linked_ptr.swap (run Heap.empty [.ctor_ptr 1 7, .ctor_ptr 2 8, .ctor_copy 3 2]) 2 1 :=
  ⟨⟨by decide, by decide⟩,
    C19_swap_symmetric (run Heap.empty [.ctor_ptr 1 7, .ctor_ptr 2 8, .ctor_copy 3 2]) 1 2
      [] [3] (by decide) (by decide) (by decide) (by decide)⟩

/-- C20: the code at `a.swap(b)` performed twice, for a unique handle `a` (address 1,
object 7) and a handle `b` (address 2) of a well-formed ring of two that holds object 8.
After the two swaps the pointers and the ring of `b` are as before, but `a`, which was
self-linked, is left with both links pointing to node 3, so `unique()` is false for it.
With the two swaps called on `b` the links of node 3 end up pointing to `a` instead of
`b`. -/
theorem C20_swap_twice_at_input :
    IsRing (run Heap.empty [.ctor_ptr 1 7, .ctor_ptr 2 8, .ctor_copy 3 2]) [1] ∧
    IsRing (run Heap.empty [.ctor_ptr 1 7, .ctor_ptr 2 8, .ctor_copy 3 2]) [2, 3] ∧
    (run Heap.empty [.ctor_ptr 1 7, .ctor_ptr 2 8, .ctor_copy 3 2]).left 1 = 1 ∧
    (run Heap.empty
      [.ctor_ptr 1 7, .ctor_ptr 2 8, .ctor_copy 3 2, .swap 1 2, .swap 1 2]).left 1 = 3 ∧
    (run Heap.empty
      [.ctor_ptr 1 7, .ctor_ptr 2 8, .ctor_copy 3 2, .swap 1 2, .swap 1 2]).right 1 = 3 ∧
    linked_ptr.unique (run Heap.empty
      [.ctor_ptr 1 7, .ctor_ptr 2 8, .ctor_copy 3 2, .swap 1 2, .swap 1 2]) 1 = false ∧
    linked_ptr.get (run Heap.empty
      [.ctor_ptr 1 7, .ctor_ptr 2 8, .ctor_copy 3 2, .swap 1 2, .swap 1 2]) 1 = 7 ∧
    IsRing (run Heap.empty
      [.ctor_ptr 1 7, .ctor_ptr 2 8, .ctor_copy 3 2, .swap 1 2, .swap 1 2]) [2, 3] ∧
    (run Heap.empty [.ctor_ptr 1 7, .ctor_ptr 2 8, .ctor_copy 3 2]).left 3 = 2 ∧
    (run Heap.empty
      [.ctor_ptr 1 7, .ctor_ptr 2 8, .ctor_copy 3 2, .swap 2 1, .swap 2 1]).left 3 = 1 ∧
    run Heap.empty [.ctor_ptr 1 7, .ctor_ptr 2 8, .ctor_copy 3 2, .swap 1 2, .swap 1 2]
      ≠ run Heap.empty [.ctor_ptr 1 7, .ctor_ptr 2 8, .ctor_copy 3 2] := by
  refine ⟨by decide, by decide, by decide, by decide, by decide, by decide, by decide,
    by decide, by decide, by decide, ?_⟩
  intro h
  have h1 : (run Heap.empty
      [.ctor_ptr 1 7, .ctor_ptr 2 8, .ctor_copy 3 2, .swap 1 2, .swap 1 2]).left 1 = 3 := by
    decide
  have h2 : (run Heap.empty [.ctor_ptr 1 7, .ctor_ptr 2 8, .ctor_copy 3 2]).left 1 = 1 := by
    decide
  rw [h, h2] at h1
  exact absurd h1 (by decide)

end smart_ptr
